import Mathlib

/-!
# Camera and turbulence of the bump-mapping viewer

A shallow embedding of `classes/camera/camera.cpp` and
`classes/turbulence/turbulence.cpp`.

The C++ code computes with `float`.  The embedding is generic in the scalar type `α`
(a field together with the elementary functions the code calls), so every definition is an
ordinary computable function; the theorems are stated for `α = ℝ`, that is, in exact real
arithmetic, where `sqrt`, `sin`, `cos`, `tan` and `pi` are the real ones.  Rounding, overflow
and NaN are not modelled; where the real model divides by zero the theorems carry the
hypothesis that excludes it.

The camera is built on GLM, a third-party library that is not part of the sources; the GLM
functions it calls are written out in namespace `glm` from their standard definitions
(default configuration: right-handed, depth range `[-1, 1]`).

Matrices are indexed mathematically: `m i j` is row `i`, column `j`
(GLM stores columns, so this is GLM's `m[j][i]`).
-/

namespace bgq_opengl

/-- Elementary functions of the C math library that the program calls through GLM and
`<cmath>`. -/
class MathFns (α : Type) where
  /-- Square root, `std::sqrt`. -/
  sqrt : α → α
  /-- Sine, `std::sin`. -/
  sin : α → α
  /-- Cosine, `std::cos`. -/
  cos : α → α
  /-- Tangent, `std::tan`. -/
  tan : α → α
  /-- The constant pi. -/
  pi : α

/-- Exact real interpretation of the elementary functions.  The real square root and the
trigonometric functions cannot be evaluated, so this one instance is not computable. -/
noncomputable instance instMathFnsReal : MathFns ℝ where
  sqrt := Real.sqrt
  sin := Real.sin
  cos := Real.cos
  tan := Real.tan
  pi := Real.pi

/-! ## GLM vectors and matrices -/

namespace glm

/-- Three-component vector, `glm::vec3`. -/
@[ext]
structure vec3 (α : Type) where
  x : α
  y : α
  z : α

/-- Four-component vector, `glm::vec4`. -/
@[ext]
structure vec4 (α : Type) where
  x : α
  y : α
  z : α
  w : α

/-- Four by four matrix, `glm::mat4`; `m i j` is row `i`, column `j`. -/
abbrev mat4 (α : Type) := Matrix (Fin 4) (Fin 4) α

variable {α : Type}

section Ops

variable [Field α]

instance : Add (vec3 α) := ⟨fun a b => ⟨a.x + b.x, a.y + b.y, a.z + b.z⟩⟩

instance : Sub (vec3 α) := ⟨fun a b => ⟨a.x - b.x, a.y - b.y, a.z - b.z⟩⟩

instance : Neg (vec3 α) := ⟨fun a => ⟨-a.x, -a.y, -a.z⟩⟩

/-- Vector times scalar, `v * s`. -/
def scale (v : vec3 α) (s : α) : vec3 α := ⟨v.x * s, v.y * s, v.z * s⟩

/-- Modelled from the spec: `glm::dot` of the GLM library, the scalar product. -/
def dot (a b : vec3 α) : α := a.x * b.x + a.y * b.y + a.z * b.z

/-- Modelled from the spec: `glm::cross` of the GLM library, the vector product. -/
def cross (a b : vec3 α) : vec3 α :=
  ⟨a.y * b.z - b.y * a.z, a.z * b.x - b.z * a.x, a.x * b.y - b.x * a.y⟩

/-- Constructor `glm::vec4(v, w)`. -/
def vec4.ofVec3 (v : vec3 α) (w : α) : vec4 α := ⟨v.x, v.y, v.z, w⟩

/-- Constructor `glm::vec3(v4)`: drops the fourth component. -/
def vec4.xyz (v : vec4 α) : vec3 α := ⟨v.x, v.y, v.z⟩

/-- Modelled from the spec: GLM's `mat4 * vec4`, matrix times column vector. -/
def mulVec4 (m : mat4 α) (v : vec4 α) : vec4 α :=
  ⟨m 0 0 * v.x + m 0 1 * v.y + m 0 2 * v.z + m 0 3 * v.w,
   m 1 0 * v.x + m 1 1 * v.y + m 1 2 * v.z + m 1 3 * v.w,
   m 2 0 * v.x + m 2 1 * v.y + m 2 2 * v.z + m 2 3 * v.w,
   m 3 0 * v.x + m 3 1 * v.y + m 3 2 * v.z + m 3 3 * v.w⟩

/-- Modelled from the spec: `glm::translate(m, v)` of the GLM library; the last column of the
result is `m[0] * v[0] + m[1] * v[1] + m[2] * v[2] + m[3]`, the other columns are those of
`m`. -/
def translate (m : mat4 α) (v : vec3 α) : mat4 α :=
  Matrix.of fun i j =>
    if j = 3 then m i 0 * v.x + m i 1 * v.y + m i 2 * v.z + m i 3 else m i j

variable [MathFns α]

/-- Modelled from the spec: `glm::radians` of the GLM library, degrees to radians. -/
def radians (degrees : α) : α := degrees * (MathFns.pi / 180)

/-- Modelled from the spec: `glm::inversesqrt` of the GLM library, `1 / sqrt(x)`. -/
def inversesqrt (x : α) : α := 1 / MathFns.sqrt x

/-- Modelled from the spec: `glm::normalize` of the GLM library,
`normalize(v) = v * inversesqrt(dot(v, v))`.  At the zero vector GLM divides by zero and
returns NaN, while this total function returns the zero vector: a property of the code is
read off it only where its argument is not zero. -/
def normalize (v : vec3 α) : vec3 α := scale v (inversesqrt (dot v v))

/-- Modelled from the spec: the three by three block `Rotate` that `glm::rotate` of the GLM
library builds from the angle (in radians) and the normalized axis, the Rodrigues rotation
formula; `Rotate angle v r c` is GLM's `Rotate[c][r]`. -/
def Rotate (angle : α) (v : vec3 α) : Matrix (Fin 3) (Fin 3) α :=
  let c := MathFns.cos angle
  let s := MathFns.sin angle
  let axis := normalize v
  let temp := scale axis (1 - c)
  !![c + temp.x * axis.x, temp.y * axis.x - s * axis.z, temp.z * axis.x + s * axis.y;
     temp.x * axis.y + s * axis.z, c + temp.y * axis.y, temp.z * axis.y - s * axis.x;
     temp.x * axis.z - s * axis.y, temp.y * axis.z + s * axis.x, c + temp.z * axis.z]

/-- Modelled from the spec: `glm::rotate(m, angle, v)` of the GLM library; column `j < 3` of
the result is
`m[0] * Rotate[j][0] + m[1] * Rotate[j][1] + m[2] * Rotate[j][2]`, the last column is
`m[3]`. -/
def rotate (m : mat4 α) (angle : α) (v : vec3 α) : mat4 α :=
  Matrix.of fun i j =>
    match j with
    | 0 => m i 0 * Rotate angle v 0 0 + m i 1 * Rotate angle v 1 0 + m i 2 * Rotate angle v 2 0
    | 1 => m i 0 * Rotate angle v 0 1 + m i 1 * Rotate angle v 1 1 + m i 2 * Rotate angle v 2 1
    | 2 => m i 0 * Rotate angle v 0 2 + m i 1 * Rotate angle v 1 2 + m i 2 * Rotate angle v 2 2
    | 3 => m i 3

/-- Modelled from the spec: `glm::perspective` of the GLM library, the standard perspective
projection (right-handed, depth range `[-1, 1]`) from the vertical field of view in radians,
the aspect ratio and the clip distances. -/
def perspective (fovy aspect zNear zFar : α) : mat4 α :=
  let tanHalfFovy := MathFns.tan (fovy / 2)
  !![1 / (aspect * tanHalfFovy), 0, 0, 0;
     0, 1 / tanHalfFovy, 0, 0;
     0, 0, -(zFar + zNear) / (zFar - zNear), -(2 * zFar * zNear) / (zFar - zNear);
     0, 0, -1, 0]

/-- Modelled from the spec: `glm::lookAt` of the GLM library, the right-handed look-at
matrix. -/
def lookAt (eye center up : vec3 α) : mat4 α :=
  let f := normalize (center - eye)
  let s := normalize (cross f up)
  let u := cross s f
  !![s.x, s.y, s.z, -dot s eye;
     u.x, u.y, u.z, -dot u eye;
     -f.x, -f.y, -f.z, dot f eye;
     0, 0, 0, 1]

end Ops

end glm

/-! ## The camera, `classes/camera/camera.cpp` -/

open glm

/-- Data members of `class Camera`.  The constants `speed`, `horizontal_rotation` and
`vertical_rotation` are never read by any method and are left out. -/
structure Camera (α : Type) where
  /-- Vector indicating where the camera is looking. -/
  direction : vec3 α
  /-- Maximum clipping limit. -/
  far : α
  /-- Field of view, in degrees. -/
  fov : α
  /-- Minimum clipping limit. -/
  near : α
  /-- Coordinates of the camera. -/
  position : vec3 α
  /-- Vector that tells the rotation of the camera. -/
  up : vec3 α
  /-- Height of the window. -/
  window_height : Int
  /-- Width of the window. -/
  window_width : Int
  /-- Accumulated transform, initialised to the identity. -/
  transforms : mat4 α

namespace Camera

variable {α : Type} [Field α]

/-- Constructor `Camera::Camera`. -/
def new (position direction : vec3 α) (fov near far : α) (width height : Int) : Camera α where
  direction := direction
  position := position
  far := far
  fov := fov
  near := near
  window_width := width
  window_height := height
  up := ⟨0, 1, 0⟩
  transforms := 1

/-- Method `Camera::getPosition`. -/
def getPosition (c : Camera α) : vec3 α :=
  vec4.xyz (mulVec4 c.transforms (vec4.ofVec3 c.position 1))

/-- Method `Camera::setWidth`. -/
def setWidth (c : Camera α) (new_width : Int) : Camera α :=
  { c with window_width := new_width }

/-- Method `Camera::setHeight`. -/
def setHeight (c : Camera α) (new_height : Int) : Camera α :=
  { c with window_height := new_height }

/-- Method `Camera::rotateLeft` (empty body). -/
def rotateLeft (c : Camera α) : Camera α := c

/-- Method `Camera::rotateRight` (empty body). -/
def rotateRight (c : Camera α) : Camera α := c

/-- Method `Camera::rotateUp` (empty body). -/
def rotateUp (c : Camera α) : Camera α := c

/-- Method `Camera::resetTransforms`. -/
def resetTransforms (c : Camera α) : Camera α :=
  { c with transforms := 1 }

/-- Method `Camera::translate`. -/
def translate (c : Camera α) (x y z : α) : Camera α :=
  let trans_matrix := glm.translate 1 ⟨x, y, z⟩
  { c with transforms := trans_matrix * c.transforms }

/-- Method `Camera::getTransformMat`. -/
def getTransformMat (c : Camera α) : mat4 α := c.transforms

/-- Method `Camera::setTransformMat`. -/
def setTransformMat (c : Camera α) (transform : mat4 α) : Camera α :=
  { c with transforms := transform }

variable [MathFns α]

/-- Method `Camera::getDirection`. -/
def getDirection (c : Camera α) : vec3 α :=
  normalize (vec4.xyz (mulVec4 c.transforms (vec4.ofVec3 c.direction 1)))

/-- Method `Camera::getProjection`; the width is converted to `float` before dividing. -/
def getProjection (c : Camera α) : mat4 α :=
  let ratio := (c.window_width : α) / (c.window_height : α)
  perspective (radians c.fov) ratio c.near c.far

/-- Method `Camera::getUp`. -/
def getUp (c : Camera α) : vec3 α :=
  normalize (vec4.xyz (mulVec4 c.transforms (vec4.ofVec3 c.up 1)))

/-- Method `Camera::getView`. -/
def getView (c : Camera α) : mat4 α :=
  let position := c.getPosition
  let direction := c.getDirection
  let up := c.getUp
  lookAt position (position + direction) up

/-- Method `Camera::getCameraMatrix`. -/
def getCameraMatrix (c : Camera α) : mat4 α := c.getProjection * c.getView

/-- Method `Camera::moveBack`. -/
def moveBack (c : Camera α) : Camera α :=
  let direction := scale (normalize c.getDirection) 0.1
  c.translate (-direction.x) (-direction.y) (-direction.z)

/-- Method `Camera::moveDown`. -/
def moveDown (c : Camera α) : Camera α :=
  let up := scale (normalize c.getUp) 0.1
  c.translate (-up.x) (-up.y) (-up.z)

/-- Method `Camera::moveFront`. -/
def moveFront (c : Camera α) : Camera α :=
  let direction := scale (normalize c.getDirection) 0.1
  c.translate direction.x direction.y direction.z

/-- Method `Camera::moveLeft`. -/
def moveLeft (c : Camera α) : Camera α :=
  let direction := scale (normalize c.getDirection) 0.1
  let up := normalize c.getUp
  let left_direction := normalize (-cross direction up)
  c.translate left_direction.x left_direction.y left_direction.z

/-- Method `Camera::moveRight`. -/
def moveRight (c : Camera α) : Camera α :=
  let direction := scale (normalize c.getDirection) 0.1
  let up := normalize c.getUp
  let left_direction := normalize (cross direction up)
  c.translate left_direction.x left_direction.y left_direction.z

/-- Method `Camera::moveUp`. -/
def moveUp (c : Camera α) : Camera α :=
  let up := scale (normalize c.getUp) 0.1
  c.translate up.x up.y up.z

/-- Method `Camera::rotate`. -/
def rotate (c : Camera α) (x y z angle : α) : Camera α :=
  let radians := glm.radians angle
  let identity_matrix : mat4 α := 1
  let rotation_matrix := glm.rotate identity_matrix radians ⟨x, y, z⟩
  { c with transforms := rotation_matrix * c.transforms }

/-- Method `Camera::rotateDown`. -/
def rotateDown (c : Camera α) : Camera α := c.rotate 1 0 1 1

end Camera

/-- One call of a state-changing public method of the camera. -/
inductive Call (α : Type) where
  | translate (x y z : α)
  | rotate (x y z angle : α)
  | moveBack
  | moveDown
  | moveFront
  | moveLeft
  | moveRight
  | moveUp
  | rotateDown
  | rotateLeft
  | rotateRight
  | rotateUp
  | resetTransforms
  | setTransformMat (transform : mat4 α)
  | setWidth (new_width : Int)
  | setHeight (new_height : Int)

/-- Effect of one call on the camera. -/
def Camera.call {α : Type} [Field α] [MathFns α] (c : Camera α) : Call α → Camera α
  | .translate x y z => c.translate x y z
  | .rotate x y z angle => c.rotate x y z angle
  | .moveBack => c.moveBack
  | .moveDown => c.moveDown
  | .moveFront => c.moveFront
  | .moveLeft => c.moveLeft
  | .moveRight => c.moveRight
  | .moveUp => c.moveUp
  | .rotateDown => c.rotateDown
  | .rotateLeft => c.rotateLeft
  | .rotateRight => c.rotateRight
  | .rotateUp => c.rotateUp
  | .resetTransforms => c.resetTransforms
  | .setTransformMat transform => c.setTransformMat transform
  | .setWidth new_width => c.setWidth new_width
  | .setHeight new_height => c.setHeight new_height

/-- Effect of a finite sequence of calls, first call first. -/
def Camera.run {α : Type} [Field α] [MathFns α] (c : Camera α) (calls : List (Call α)) :
    Camera α :=
  calls.foldl Camera.call c

/-! ## The turbulence generator, `classes/turbulence/turbulence.cpp` -/

/-- A sinusoid function `y = amplitude * sin((x + phase) * frequency)`. -/
structure Sinusoid (α : Type) where
  amplitude : α
  phase : α
  frequency : α

/-- Data members of `class Turbulence`. -/
structure Turbulence (α : Type) where
  /-- All the sinusoid functions. -/
  partial_sinusoids : List (Sinusoid α)

namespace Turbulence

variable {α : Type} [Field α]

/-- Modelled from the spec: `std::default_random_engine` and
`std::uniform_real_distribution<float>` belong to the C++ standard library and are not under
`src/`.  A default-constructed engine has a fixed seed, so the values it yields form one fixed
sequence `canonical 0, canonical 1, ...` of numbers in `[0, 1)`; the state of the engine is
the index of the next value.  A distribution over `[a, b]` maps the next value `u` to
`a + (b - a) * u` and advances the engine. -/
def uniform_real_distribution (canonical : ℕ → α) (a b : α) (generator : ℕ) : α × ℕ :=
  (a + (b - a) * canonical generator, generator + 1)

/-- State of the constructor after `k` iterations of its loop: the random engine and the
vector of sinusoids pushed so far. -/
def fill (canonical : ℕ → α)
    (min_amplitude max_amplitude min_phi max_phi min_omega max_omega : α) :
    ℕ → ℕ × List (Sinusoid α)
  | 0 => (0, [])
  | k + 1 =>
    let st := fill canonical min_amplitude max_amplitude min_phi max_phi min_omega max_omega k
    let amplitude := uniform_real_distribution canonical min_amplitude max_amplitude st.1
    let phase := uniform_real_distribution canonical min_phi max_phi amplitude.2
    let frequency := uniform_real_distribution canonical min_omega max_omega phase.2
    (frequency.2, st.2 ++ [⟨amplitude.1, phase.1, frequency.1⟩])

/-- Constructor `Turbulence::Turbulence`: the loop `for (int i = 0; i < num_of_sins; ++i)`
runs `num_of_sins` times, and not at all when `num_of_sins` is negative. -/
def new (canonical : ℕ → α) (num_of_sins : Int)
    (min_amplitude max_amplitude min_phi max_phi min_omega max_omega : α) : Turbulence α :=
  ⟨(fill canonical min_amplitude max_amplitude min_phi max_phi min_omega max_omega
      num_of_sins.toNat).2⟩

variable [MathFns α]

/-- Static method `Turbulence::solveSinusoid`. -/
def solveSinusoid (sinusoid : Sinusoid α) (x : α) : α :=
  sinusoid.amplitude * MathFns.sin ((x + sinusoid.phase) * sinusoid.frequency)

/-- Method `Turbulence::solveSinusoids`: the returned value together with the generator
after the call. -/
def solveSinusoids (t : Turbulence α) (x : α) : α × Turbulence α :=
  (t.partial_sinusoids.foldl (fun y sinusoid => y + solveSinusoid sinusoid x) 0, t)

end Turbulence

/-! ## Vocabulary of the properties -/

/-- The last row of the matrix is `(0, 0, 0, 1)`: the matrix is an affine map. -/
def glm.IsAffine {α : Type} [Field α] (m : mat4 α) : Prop :=
  m 3 0 = 0 ∧ m 3 1 = 0 ∧ m 3 2 = 0 ∧ m 3 3 = 1

/-- The call is `resetTransforms`, `translate`, or `rotate` about a non-zero axis. -/
def Call.IsPoseCall {α : Type} [Field α] : Call α → Prop
  | .resetTransforms => True
  | .translate _ _ _ => True
  | .rotate x y z _ => (⟨x, y, z⟩ : vec3 α) ≠ ⟨0, 0, 0⟩
  | _ => False

/-- The Rodrigues rotation matrix `c I + (1 - c) n nᵀ + s [n]×` about the unit axis `n`, for
`c` and `s` the cosine and sine of the angle, as a homogeneous four by four matrix. -/
def rodrigues {α : Type} [Field α] (c s : α) (n : vec3 α) : mat4 α :=
  !![c + (1 - c) * n.x * n.x, (1 - c) * n.x * n.y - s * n.z, (1 - c) * n.x * n.z + s * n.y, 0;
     (1 - c) * n.y * n.x + s * n.z, c + (1 - c) * n.y * n.y, (1 - c) * n.y * n.z - s * n.x, 0;
     (1 - c) * n.z * n.x - s * n.y, (1 - c) * n.z * n.y + s * n.x, c + (1 - c) * n.z * n.z, 0;
     0, 0, 0, 1]

/-- Normalized device depth of a clip-space vector: `z / w`, the perspective divide. -/
def glm.ndcDepth {α : Type} [Field α] (v : vec4 α) : α := v.z / v.w

/-- A camera at the origin looking down the negative z axis whose accumulated transform was
set, through `setTransformMat`, to a matrix with last row `(0, 0, 0, -20)`. -/
def Camera.projectiveExample (α : Type) [Field α] : Camera α :=
  (Camera.new ⟨0, 0, 0⟩ ⟨0, 0, -1⟩ 45 0.1 300 1400 800).setTransformMat
    !![1, 0, 0, 0; 0, 1, 0, 0; 0, 0, 1, 0; 0, 0, 0, -20]

/-- Euclidean length of a vector, `sqrt(dot(v, v))`. -/
def glm.length {α : Type} [Field α] [MathFns α] (v : vec3 α) : α := MathFns.sqrt (dot v v)

/-- The image `R * p + t` of the point `p`, for `R` the upper-left three by three block and
`t` the first three entries of the last column of the matrix. -/
def glm.transformPoint {α : Type} [Field α] (m : mat4 α) (p : vec3 α) : vec3 α :=
  ⟨m 0 0 * p.x + m 0 1 * p.y + m 0 2 * p.z + m 0 3,
   m 1 0 * p.x + m 1 1 * p.y + m 1 2 * p.z + m 1 3,
   m 2 0 * p.x + m 2 1 * p.y + m 2 2 * p.z + m 2 3⟩

/-- The upper-left three by three block of the matrix. -/
def glm.rotationBlock {α : Type} [Field α] (m : mat4 α) : Matrix (Fin 3) (Fin 3) α :=
  m.submatrix Fin.castSucc Fin.castSucc

/-- The matrix is a rigid transform: its upper-left block `R` satisfies `Rᵀ * R = 1` and
`det R = 1`, and its last row is `(0, 0, 0, 1)`. -/
def glm.IsRigid {α : Type} [Field α] (m : mat4 α) : Prop :=
  (glm.rotationBlock m).transpose * glm.rotationBlock m = 1
    ∧ (glm.rotationBlock m).det = 1 ∧ glm.IsAffine m

/-- The call is `resetTransforms`, `translate`, `rotate` about a non-zero axis, or one of the
six move and four rotate primitives. -/
def Call.IsMotionCall {α : Type} [Field α] : Call α → Prop
  | .rotate x y z _ => (⟨x, y, z⟩ : vec3 α) ≠ ⟨0, 0, 0⟩
  | .setTransformMat _ => False
  | .setWidth _ => False
  | .setHeight _ => False
  | _ => True

/-- The camera that `main.cpp` creates, in its window of 1400 by 800. -/
def Camera.mainCamera (α : Type) [Field α] : Camera α :=
  Camera.new ⟨0, 0.75, 3⟩ ⟨0, -0.25, -1⟩ 45 0.1 300 1400 800

/-! ## Runs in which every normalization has a value

`glm::normalize` divides by the length of its argument.  At the zero vector the float code
produces NaN and exact arithmetic has no value, while the total function `glm.normalize`
returns the zero vector.  The checked run below stops, with no resulting state, at the first
call that normalizes the zero vector. -/

/-- The vector is the zero vector, the argument at which `glm::normalize` divides by zero. -/
def glm.isZero {α : Type} [Field α] [DecidableEq α] (v : vec3 α) : Bool :=
  decide (v.x = 0) && decide (v.y = 0) && decide (v.z = 0)

/-- One of the two `glm::normalize` calls behind `glm::normalize(this->getDirection())`
receives the zero vector: the one inside `getDirection`, applied to the transformed base
direction, or the outer one, applied to its result. -/
def Camera.directionNormalizesZero {α : Type} [Field α] [MathFns α] [DecidableEq α]
    (c : Camera α) : Bool :=
  glm.isZero (vec4.xyz (mulVec4 c.transforms (vec4.ofVec3 c.direction 1)))
    || glm.isZero c.getDirection

/-- One of the two `glm::normalize` calls behind `glm::normalize(this->getUp())` receives the
zero vector: the one inside `getUp`, applied to the transformed base up vector, or the outer
one, applied to its result. -/
def Camera.upNormalizesZero {α : Type} [Field α] [MathFns α] [DecidableEq α]
    (c : Camera α) : Bool :=
  glm.isZero (vec4.xyz (mulVec4 c.transforms (vec4.ofVec3 c.up 1))) || glm.isZero c.getUp

/-- Some `glm::normalize` executed by the call receives the zero vector in state `c`:
the axis in `rotate` and `rotateDown`; the direction in `moveFront` and `moveBack`; the up
vector in `moveDown` and `moveUp`; the direction, the up vector or the cross product in
`moveLeft` and `moveRight`.  The other methods normalize nothing. -/
def Call.normalizesZero {α : Type} [Field α] [MathFns α] [DecidableEq α] (c : Camera α) :
    Call α → Bool
  | .rotate x y z _ => glm.isZero (⟨x, y, z⟩ : vec3 α)
  | .rotateDown => glm.isZero (⟨1, 0, 1⟩ : vec3 α)
  | .moveBack => c.directionNormalizesZero
  | .moveFront => c.directionNormalizesZero
  | .moveDown => c.upNormalizesZero
  | .moveUp => c.upNormalizesZero
  | .moveLeft =>
    c.directionNormalizesZero || c.upNormalizesZero
      || glm.isZero (-cross (scale (glm.normalize c.getDirection) 0.1) (glm.normalize c.getUp))
  | .moveRight =>
    c.directionNormalizesZero || c.upNormalizesZero
      || glm.isZero (cross (scale (glm.normalize c.getDirection) 0.1) (glm.normalize c.getUp))
  | _ => false

/-- Effect of one call, when it has one: no state results from a call that normalizes the
zero vector (the float code fills the accumulated transform with NaN). -/
def Camera.callChecked {α : Type} [Field α] [MathFns α] [DecidableEq α] (c : Camera α)
    (k : Call α) : Option (Camera α) :=
  if k.normalizesZero c then none else some (c.call k)

/-- Effect of a finite sequence of calls, first call first, when every call has one. -/
def Camera.runChecked {α : Type} [Field α] [MathFns α] [DecidableEq α] (c : Camera α) :
    List (Call α) → Option (Camera α)
  | [] => some c
  | k :: ks => (c.callChecked k).bind fun next => next.runChecked ks

/-! ## Basic facts about the vector and matrix operations -/

section Lemmas

variable {α : Type} [Field α]

@[simp] theorem sqrt_real (x : ℝ) : MathFns.sqrt x = Real.sqrt x := rfl

@[simp] theorem sin_real (x : ℝ) : MathFns.sin x = Real.sin x := rfl

@[simp] theorem cos_real (x : ℝ) : MathFns.cos x = Real.cos x := rfl

@[simp] theorem tan_real (x : ℝ) : MathFns.tan x = Real.tan x := rfl

@[simp] theorem pi_real : (MathFns.pi : ℝ) = Real.pi := rfl

@[simp] theorem vec3_add_def (a b : vec3 α) : a + b = ⟨a.x + b.x, a.y + b.y, a.z + b.z⟩ := rfl

@[simp] theorem vec3_sub_def (a b : vec3 α) : a - b = ⟨a.x - b.x, a.y - b.y, a.z - b.z⟩ := rfl

@[simp] theorem vec3_neg_def (a : vec3 α) : -a = ⟨-a.x, -a.y, -a.z⟩ := rfl

/-- The identity matrix fixes every column vector. -/
theorem mulVec4_one (v : vec4 α) : mulVec4 1 v = v := by
  ext <;> simp [mulVec4, Matrix.one_apply]

/-- Multiplying by a product is multiplying twice. -/
theorem mulVec4_mul (a b : mat4 α) (v : vec4 α) :
    mulVec4 (a * b) v = mulVec4 a (mulVec4 b v) := by
  ext <;> simp [mulVec4, Matrix.mul_apply, Fin.sum_univ_four] <;> ring

/-- The matrix `glm::translate(mat4(1), v)` written out. -/
theorem translate_one (v : vec3 α) :
    glm.translate 1 v = !![1, 0, 0, v.x; 0, 1, 0, v.y; 0, 0, 1, v.z; 0, 0, 0, 1] := by
  ext i j
  fin_cases i <;> fin_cases j <;>
    simp [glm.translate, Matrix.one_apply, Matrix.vecHead, Matrix.vecTail]

/-- A translation matrix adds `w` times the offset to the first three components. -/
theorem mulVec4_translate_one (d : vec3 α) (v : vec4 α) :
    mulVec4 (glm.translate 1 d) v
      = ⟨v.x + d.x * v.w, v.y + d.y * v.w, v.z + d.z * v.w, v.w⟩ := by
  rw [translate_one]
  ext <;> simp [mulVec4, Matrix.vecHead, Matrix.vecTail]

/-- Translating by `-d` undoes translating by `d`. -/
theorem translate_neg_mul_translate (d : vec3 α) :
    glm.translate 1 (-d) * glm.translate 1 d = 1 := by
  rw [translate_one, translate_one]
  ext i j
  fin_cases i <;> fin_cases j <;>
    simp [Matrix.mul_apply, Fin.sum_univ_four, Matrix.one_apply, Matrix.vecHead,
      Matrix.vecTail]

/-- The world up vector has length one. -/
theorem normalize_up : glm.normalize (⟨0, 1, 0⟩ : vec3 ℝ) = ⟨0, 1, 0⟩ := by
  simp [glm.normalize, scale, inversesqrt, dot]

/-- No call writes the base position, the base direction or the up vector. -/
theorem Camera.call_base [MathFns α] (c : Camera α) (k : Call α) :
    (c.call k).position = c.position ∧ (c.call k).direction = c.direction
      ∧ (c.call k).up = c.up := by
  cases k <;> exact ⟨rfl, rfl, rfl⟩

/-- No sequence of calls writes the base position, the base direction or the up vector. -/
theorem Camera.run_base [MathFns α] (calls : List (Call α)) (c : Camera α) :
    (c.run calls).position = c.position ∧ (c.run calls).direction = c.direction
      ∧ (c.run calls).up = c.up := by
  induction calls generalizing c with
  | nil => exact ⟨rfl, rfl, rfl⟩
  | cons k ks ih =>
    obtain ⟨h1, h2, h3⟩ := ih (c.call k)
    obtain ⟨g1, g2, g3⟩ := Camera.call_base c k
    exact ⟨h1.trans g1, h2.trans g2, h3.trans g3⟩

/-- After `resetTransforms` the position is the base position. -/
theorem Camera.getPosition_resetTransforms (c : Camera α) :
    c.resetTransforms.getPosition = c.position := by
  simp [Camera.getPosition, Camera.resetTransforms, mulVec4_one, vec4.xyz, vec4.ofVec3]

/-- After `resetTransforms` the direction is the normalized base direction. -/
theorem Camera.getDirection_resetTransforms [MathFns α] (c : Camera α) :
    c.resetTransforms.getDirection = glm.normalize c.direction := by
  simp [Camera.getDirection, Camera.resetTransforms, mulVec4_one, vec4.xyz, vec4.ofVec3]

/-- After `resetTransforms` the up vector is the normalized base up vector. -/
theorem Camera.getUp_resetTransforms [MathFns α] (c : Camera α) :
    c.resetTransforms.getUp = glm.normalize c.up := by
  simp [Camera.getUp, Camera.resetTransforms, mulVec4_one, vec4.xyz, vec4.ofVec3]

/-- Position reported by a fresh camera. -/
theorem Camera.getPosition_new (position direction : vec3 α) (fov near far : α)
    (width height : Int) :
    (Camera.new position direction fov near far width height).getPosition = position := by
  simp [Camera.getPosition, Camera.new, mulVec4_one, vec4.xyz, vec4.ofVec3]

/-- Direction reported by a fresh camera. -/
theorem Camera.getDirection_new [MathFns α] (position direction : vec3 α) (fov near far : α)
    (width height : Int) :
    (Camera.new position direction fov near far width height).getDirection
      = glm.normalize direction := by
  simp [Camera.getDirection, Camera.new, mulVec4_one, vec4.xyz, vec4.ofVec3]

/-- Up vector reported by a fresh camera. -/
theorem Camera.getUp_new (position direction : vec3 ℝ) (fov near far : ℝ)
    (width height : Int) :
    (Camera.new position direction fov near far width height).getUp = ⟨0, 1, 0⟩ := by
  have h := normalize_up
  simpa [Camera.getUp, Camera.new, mulVec4_one, vec4.xyz, vec4.ofVec3] using h

/-- The identity is affine. -/
theorem isAffine_one : glm.IsAffine (1 : mat4 α) := by
  simp [glm.IsAffine, Matrix.one_apply]

/-- A product of affine matrices is affine. -/
theorem isAffine_mul {a b : mat4 α} (ha : glm.IsAffine a) (hb : glm.IsAffine b) :
    glm.IsAffine (a * b) := by
  obtain ⟨a0, a1, a2, a3⟩ := ha
  obtain ⟨b0, b1, b2, b3⟩ := hb
  simp [glm.IsAffine, Matrix.mul_apply, Fin.sum_univ_four, a0, a1, a2, a3, b0, b1, b2, b3]

/-- A translation matrix is affine. -/
theorem isAffine_translate_one (v : vec3 α) : glm.IsAffine (glm.translate 1 v) := by
  simp [glm.IsAffine, glm.translate, Matrix.one_apply]

/-- A rotation matrix is affine. -/
theorem isAffine_rotate_one [MathFns α] (a : α) (v : vec3 α) :
    glm.IsAffine (glm.rotate 1 a v) := by
  simp [glm.IsAffine, glm.rotate, Matrix.one_apply]

/-- An affine matrix keeps the fourth component of a point equal to one. -/
theorem mulVec4_w_of_isAffine {m : mat4 α} (hm : glm.IsAffine m) (p : vec3 α) :
    (mulVec4 m (vec4.ofVec3 p 1)).w = 1 := by
  obtain ⟨h0, h1, h2, h3⟩ := hm
  simp [mulVec4, vec4.ofVec3, h0, h1, h2, h3]

/-- A pose call keeps the accumulated transform affine. -/
theorem Camera.call_isAffine [MathFns α] (c : Camera α) (k : Call α) (hk : k.IsPoseCall)
    (hc : glm.IsAffine c.transforms) : glm.IsAffine (c.call k).transforms := by
  cases k <;> simp only [Call.IsPoseCall] at hk
  · exact isAffine_mul (isAffine_translate_one _) hc
  · exact isAffine_mul (isAffine_rotate_one _ _) hc
  · exact isAffine_one

/-- Every state reached by pose calls from an affine state is affine. -/
theorem Camera.run_isAffine [MathFns α] (calls : List (Call α)) (c : Camera α)
    (hcalls : ∀ k ∈ calls, k.IsPoseCall) (hc : glm.IsAffine c.transforms) :
    glm.IsAffine (c.run calls).transforms := by
  induction calls generalizing c with
  | nil => exact hc
  | cons k ks ih =>
    exact ih (c.call k) (fun q hq => hcalls q (List.mem_cons_of_mem _ hq))
      (Camera.call_isAffine c k (hcalls k (List.mem_cons_self _ _)) hc)

/-- In an affine state, `translate` adds its offset to the reported position. -/
theorem Camera.getPosition_translate (c : Camera α) (hc : glm.IsAffine c.transforms)
    (dx dy dz : α) :
    (c.translate dx dy dz).getPosition = c.getPosition + ⟨dx, dy, dz⟩ := by
  have hw := mulVec4_w_of_isAffine hc c.position
  simp only [Camera.getPosition, Camera.translate, mulVec4_mul, mulVec4_translate_one, hw,
    vec4.xyz, vec3_add_def, mul_one]

/-- The matrix `glm::rotate(mat4(1), a, v)` written out. -/
theorem rotate_one (a : ℝ) (v : vec3 ℝ) :
    glm.rotate 1 a v
      = !![Rotate a v 0 0, Rotate a v 0 1, Rotate a v 0 2, 0;
           Rotate a v 1 0, Rotate a v 1 1, Rotate a v 1 2, 0;
           Rotate a v 2 0, Rotate a v 2 1, Rotate a v 2 2, 0;
           0, 0, 0, 1] := by
  ext i j
  fin_cases i <;> fin_cases j <;>
    simp [glm.rotate, Matrix.one_apply, Matrix.vecHead, Matrix.vecTail]

/-- A non-zero vector has positive squared length. -/
theorem dot_self_pos (v : vec3 ℝ) (hv : v ≠ ⟨0, 0, 0⟩) : 0 < dot v v := by
  have h0 : 0 ≤ dot v v := by
    simp only [dot]
    nlinarith [mul_self_nonneg v.x, mul_self_nonneg v.y, mul_self_nonneg v.z]
  rcases h0.lt_or_eq with h | h
  · exact h
  · exfalso
    apply hv
    simp only [dot] at h
    have hx : v.x = 0 := by
      nlinarith [mul_self_nonneg v.x, mul_self_nonneg v.y, mul_self_nonneg v.z]
    have hy : v.y = 0 := by
      nlinarith [mul_self_nonneg v.x, mul_self_nonneg v.y, mul_self_nonneg v.z]
    have hz : v.z = 0 := by
      nlinarith [mul_self_nonneg v.x, mul_self_nonneg v.y, mul_self_nonneg v.z]
    ext <;> assumption

/-- Normalizing a non-zero vector gives a unit vector. -/
theorem dot_normalize_self (v : vec3 ℝ) (hv : v ≠ ⟨0, 0, 0⟩) :
    dot (glm.normalize v) (glm.normalize v) = 1 := by
  have hpos := dot_self_pos v hv
  have hs : Real.sqrt (dot v v) * Real.sqrt (dot v v) = dot v v := Real.mul_self_sqrt hpos.le
  have hne : Real.sqrt (dot v v) ≠ 0 := (Real.sqrt_pos.mpr hpos).ne'
  have h : dot (glm.normalize v) (glm.normalize v)
      = dot v v * (1 / Real.sqrt (dot v v) * (1 / Real.sqrt (dot v v))) := by
    simp only [glm.normalize, scale, inversesqrt, sqrt_real, dot]
    ring
  rw [h]
  nth_rewrite 1 [← hs]
  field_simp

/-- Entries of the block `Rotate`: the Rodrigues formula about the normalized axis. -/
theorem Rotate_entries (a : ℝ) (v : vec3 ℝ) :
    Rotate a v 0 0 = Real.cos a + (glm.normalize v).x * (1 - Real.cos a) * (glm.normalize v).x
    ∧ Rotate a v 0 1 = (glm.normalize v).y * (1 - Real.cos a) * (glm.normalize v).x
        - Real.sin a * (glm.normalize v).z
    ∧ Rotate a v 0 2 = (glm.normalize v).z * (1 - Real.cos a) * (glm.normalize v).x
        + Real.sin a * (glm.normalize v).y
    ∧ Rotate a v 1 0 = (glm.normalize v).x * (1 - Real.cos a) * (glm.normalize v).y
        + Real.sin a * (glm.normalize v).z
    ∧ Rotate a v 1 1 = Real.cos a + (glm.normalize v).y * (1 - Real.cos a) * (glm.normalize v).y
    ∧ Rotate a v 1 2 = (glm.normalize v).z * (1 - Real.cos a) * (glm.normalize v).y
        - Real.sin a * (glm.normalize v).x
    ∧ Rotate a v 2 0 = (glm.normalize v).x * (1 - Real.cos a) * (glm.normalize v).z
        - Real.sin a * (glm.normalize v).y
    ∧ Rotate a v 2 1 = (glm.normalize v).y * (1 - Real.cos a) * (glm.normalize v).z
        + Real.sin a * (glm.normalize v).x
    ∧ Rotate a v 2 2 = Real.cos a + (glm.normalize v).z * (1 - Real.cos a) * (glm.normalize v).z :=
  ⟨rfl, rfl, rfl, rfl, rfl, rfl, rfl, rfl, rfl⟩

/-- The matrix `glm::rotate(mat4(1), a, v)` is the Rodrigues rotation about the normalized
axis. -/
theorem rotate_one_eq_rodrigues (a : ℝ) (v : vec3 ℝ) :
    glm.rotate 1 a v = rodrigues (Real.cos a) (Real.sin a) (glm.normalize v) := by
  obtain ⟨e00, e01, e02, e10, e11, e12, e20, e21, e22⟩ := Rotate_entries a v
  rw [rotate_one, e00, e01, e02, e10, e11, e12, e20, e21, e22]
  ext i j
  fin_cases i <;> fin_cases j <;>
    simp only [rodrigues, Matrix.of_apply, Matrix.cons_val', Matrix.cons_val_zero,
      Matrix.cons_val_one, Matrix.cons_val_two, Matrix.cons_val_three, Matrix.head_cons,
      Matrix.tail_cons, Matrix.empty_val', Matrix.cons_val_fin_one, Fin.zero_eta, Fin.mk_one,
      Fin.reduceFinMk] <;> ring

/-- Rotating by `-a` about a non-zero axis undoes rotating by `a` about it. -/
theorem rotate_neg_mul (a : ℝ) (v : vec3 ℝ) (hv : v ≠ ⟨0, 0, 0⟩) :
    glm.rotate 1 (-a) v * glm.rotate 1 a v = 1 := by
  have hn := dot_normalize_self v hv
  have hcs := Real.sin_sq_add_cos_sq a
  obtain ⟨e00, e01, e02, e10, e11, e12, e20, e21, e22⟩ := Rotate_entries a v
  obtain ⟨f00, f01, f02, f10, f11, f12, f20, f21, f22⟩ := Rotate_entries (-a) v
  simp only [Real.cos_neg, Real.sin_neg] at f00 f01 f02 f10 f11 f12 f20 f21 f22
  rw [rotate_one, rotate_one]
  simp only [dot] at hn
  generalize glm.normalize v = n at *
  generalize Real.cos a = c at *
  generalize Real.sin a = s at *
  ext i j
  fin_cases i <;> fin_cases j <;>
    simp [Matrix.mul_apply, Fin.sum_univ_four, Matrix.one_apply, Matrix.vecHead,
      Matrix.vecTail]
  all_goals simp only [e00, e01, e02, e10, e11, e12, e20, e21, e22, f00, f01, f02, f10, f11,
    f12, f20, f21, f22]
  · linear_combination (1 - n.x * n.x) * hcs + ((1 - c) ^ 2 * (n.x * n.x) + s ^ 2) * hn
  · linear_combination (0 - n.x * n.y) * hcs + ((1 - c) ^ 2 * (n.x * n.y)) * hn
  · linear_combination (0 - n.x * n.z) * hcs + ((1 - c) ^ 2 * (n.x * n.z)) * hn
  · linear_combination (0 - n.y * n.x) * hcs + ((1 - c) ^ 2 * (n.y * n.x)) * hn
  · linear_combination (1 - n.y * n.y) * hcs + ((1 - c) ^ 2 * (n.y * n.y) + s ^ 2) * hn
  · linear_combination (0 - n.y * n.z) * hcs + ((1 - c) ^ 2 * (n.y * n.z)) * hn
  · linear_combination (0 - n.z * n.x) * hcs + ((1 - c) ^ 2 * (n.z * n.x)) * hn
  · linear_combination (0 - n.z * n.y) * hcs + ((1 - c) ^ 2 * (n.z * n.y)) * hn
  · linear_combination (1 - n.z * n.z) * hcs + ((1 - c) ^ 2 * (n.z * n.z) + s ^ 2) * hn

/-- Translating by the opposite offset restores the state. -/
theorem Camera.translate_neg_translate (c : Camera α) (dx dy dz : α) :
    (c.translate dx dy dz).translate (-dx) (-dy) (-dz) = c := by
  have hm : glm.translate 1 (⟨-dx, -dy, -dz⟩ : vec3 α)
      * (glm.translate 1 ⟨dx, dy, dz⟩ * c.transforms) = c.transforms := by
    rw [← Matrix.mul_assoc]
    have := translate_neg_mul_translate (⟨dx, dy, dz⟩ : vec3 α)
    rw [vec3_neg_def] at this
    rw [this, Matrix.one_mul]
  cases c
  simp only [Camera.translate] at hm ⊢
  rw [hm]

/-- A non-zero vector has positive length. -/
theorem sqrt_dot_self_pos (v : vec3 ℝ) (hv : v ≠ ⟨0, 0, 0⟩) : 0 < Real.sqrt (dot v v) :=
  Real.sqrt_pos.mpr (dot_self_pos v hv)

/-- Normalizing twice is normalizing once. -/
theorem normalize_normalize (v : vec3 ℝ) (hv : v ≠ ⟨0, 0, 0⟩) :
    glm.normalize (glm.normalize v) = glm.normalize v := by
  have h := dot_normalize_self v hv
  have hs : glm.normalize (glm.normalize v)
      = scale (glm.normalize v) (1 / Real.sqrt (dot (glm.normalize v) (glm.normalize v))) := rfl
  rw [hs, h]
  simp [scale]

/-- Scaling by a positive factor does not change the normalized vector. -/
theorem normalize_scale_pos (v : vec3 ℝ) (hv : v ≠ ⟨0, 0, 0⟩) (k : ℝ) (hk : 0 < k) :
    glm.normalize (scale v k) = glm.normalize v := by
  have hpos := sqrt_dot_self_pos v hv
  have hd : dot (scale v k) (scale v k) = k * k * dot v v := by
    simp only [dot, scale]
    ring
  have hsq : Real.sqrt (dot (scale v k) (scale v k)) = k * Real.sqrt (dot v v) := by
    rw [hd, Real.sqrt_mul (mul_self_nonneg k), Real.sqrt_mul_self hk.le]
  have hs : glm.normalize (scale v k)
      = scale (scale v k) (1 / Real.sqrt (dot (scale v k) (scale v k))) := rfl
  have hn : glm.normalize v = scale v (1 / Real.sqrt (dot v v)) := rfl
  rw [hs, hn, hsq]
  have hk0 : k ≠ 0 := hk.ne'
  have hp0 : Real.sqrt (dot v v) ≠ 0 := hpos.ne'
  ext <;> simp only [scale] <;> field_simp <;> ring

/-- In an affine state with non-zero transformed direction, `moveFront` keeps the
direction. -/
theorem Camera.getDirection_moveFront (c : Camera ℝ) (hc : glm.IsAffine c.transforms)
    (hv : vec4.xyz (mulVec4 c.transforms (vec4.ofVec3 c.direction 1)) ≠ ⟨0, 0, 0⟩) :
    c.moveFront.getDirection = c.getDirection := by
  have hw := mulVec4_w_of_isAffine hc c.direction
  have hpos := sqrt_dot_self_pos _ hv
  have hnn := normalize_normalize _ hv
  simp only [Camera.moveFront, Camera.getDirection, Camera.translate, mulVec4_mul,
    mulVec4_translate_one, hw, mul_one, hnn]
  generalize mulVec4 c.transforms (vec4.ofVec3 c.direction 1) = p at hv hpos ⊢
  have hk : (0 : ℝ) < 1 + 1 / Real.sqrt (dot (vec4.xyz p) (vec4.xyz p)) * 0.1 := by
    positivity
  have key : ∀ q : vec3 ℝ,
      q = scale (vec4.xyz p) (1 + 1 / Real.sqrt (dot (vec4.xyz p) (vec4.xyz p)) * 0.1) →
      glm.normalize q = glm.normalize (vec4.xyz p) := by
    intro q hq
    rw [hq]
    exact normalize_scale_pos _ hv _ hk
  apply key
  ext <;> simp only [vec4.xyz, scale, glm.normalize, inversesqrt, sqrt_real] <;> ring

/-- The vector `(0,0,-1)` has length one. -/
theorem normalize_neg_z : glm.normalize (⟨0, 0, -1⟩ : vec3 ℝ) = ⟨0, 0, -1⟩ := by
  simp [glm.normalize, scale, inversesqrt, dot]

/-- The vector `(0,0,1)` has length one. -/
theorem normalize_pos_z : glm.normalize (⟨0, 0, 1⟩ : vec3 ℝ) = ⟨0, 0, 1⟩ := by
  simp [glm.normalize, scale, inversesqrt, dot]

/-- The example camera reports the origin as its position. -/
theorem projectiveExample_getPosition :
    (Camera.projectiveExample ℝ).getPosition = ⟨0, 0, 0⟩ := by
  simp [Camera.projectiveExample, Camera.getPosition, Camera.setTransformMat, Camera.new,
    mulVec4, vec4.ofVec3, vec4.xyz, Matrix.vecHead, Matrix.vecTail]

/-- The example camera looks down the negative z axis. -/
theorem projectiveExample_getDirection :
    (Camera.projectiveExample ℝ).getDirection = ⟨0, 0, -1⟩ := by
  have h := normalize_neg_z
  simpa [Camera.projectiveExample, Camera.getDirection, Camera.setTransformMat, Camera.new,
    mulVec4, vec4.ofVec3, vec4.xyz, Matrix.vecHead, Matrix.vecTail] using h

/-- On the example camera `moveFront` is a translation by `(0,0,-0.1)`. -/
theorem projectiveExample_moveFront : (Camera.projectiveExample ℝ).moveFront
    = (Camera.projectiveExample ℝ).translate 0 0 (-0.1) := by
  simp only [Camera.moveFront, projectiveExample_getDirection, normalize_neg_z, scale]
  norm_num

/-- After `moveFront` the example camera looks up the positive z axis: the step reversed
its direction. -/
theorem projectiveExample_moveFront_getDirection :
    (Camera.projectiveExample ℝ).moveFront.getDirection = ⟨0, 0, 1⟩ := by
  rw [projectiveExample_moveFront]
  have h := normalize_pos_z
  simp only [Camera.getDirection, Camera.translate, mulVec4_mul, mulVec4_translate_one]
  simp [Camera.projectiveExample, Camera.setTransformMat, Camera.new,
    mulVec4, vec4.ofVec3, vec4.xyz, Matrix.vecHead, Matrix.vecTail]
  norm_num
  exact h

/-- On the example camera `moveBack` after `moveFront` translates by `(0,0,-0.1)` again. -/
theorem projectiveExample_moveBack : (Camera.projectiveExample ℝ).moveFront.moveBack
    = ((Camera.projectiveExample ℝ).translate 0 0 (-0.1)).translate 0 0 (-0.1) := by
  have h := projectiveExample_moveFront_getDirection
  simp only [Camera.moveBack, h, normalize_pos_z, scale]
  rw [projectiveExample_moveFront]
  norm_num

/-- Position of the example camera after `moveFront` and `moveBack`. -/
theorem projectiveExample_final :
    (Camera.projectiveExample ℝ).moveFront.moveBack.getPosition = ⟨0, 0, 4⟩ := by
  rw [projectiveExample_moveBack]
  simp only [Camera.getPosition, Camera.translate, mulVec4_mul, mulVec4_translate_one]
  simp [Camera.projectiveExample, Camera.setTransformMat, Camera.new,
    mulVec4, vec4.ofVec3, vec4.xyz, Matrix.vecHead, Matrix.vecTail]
  norm_num

/-- In an affine state with non-zero transformed direction, `moveBack` undoes `moveFront`. -/
theorem Camera.moveBack_moveFront (c : Camera ℝ) (hc : glm.IsAffine c.transforms)
    (hv : vec4.xyz (mulVec4 c.transforms (vec4.ofVec3 c.direction 1)) ≠ ⟨0, 0, 0⟩) :
    c.moveFront.moveBack = c := by
  have h := Camera.getDirection_moveFront c hc hv
  have hb : c.moveFront.moveBack
      = c.moveFront.translate (-(scale (glm.normalize c.moveFront.getDirection) 0.1).x)
          (-(scale (glm.normalize c.moveFront.getDirection) 0.1).y)
          (-(scale (glm.normalize c.moveFront.getDirection) 0.1).z) := rfl
  have hf : c.moveFront
      = c.translate (scale (glm.normalize c.getDirection) 0.1).x
          (scale (glm.normalize c.getDirection) 0.1).y
          (scale (glm.normalize c.getDirection) 0.1).z := rfl
  rw [hb, h]
  nth_rewrite 1 [hf]
  exact Camera.translate_neg_translate c _ _ _

/-- The loop of `solveSinusoids` started from `y` adds the values of all sinusoids to `y`. -/
theorem foldl_solveSinusoid (l : List (Sinusoid ℝ)) (x y : ℝ) :
    l.foldl (fun y sinusoid => y + Turbulence.solveSinusoid sinusoid x) y
      = y + (l.map fun s => s.amplitude * Real.sin ((x + s.phase) * s.frequency)).sum := by
  induction l generalizing y with
  | nil => simp
  | cons s l ih =>
    simp only [List.foldl_cons, List.map_cons, List.sum_cons, ih]
    simp only [Turbulence.solveSinusoid, sin_real]
    ring

/-- The constructor's loop has pushed `k` sinusoids and drawn `3 * k` values after `k`
iterations. -/
theorem Turbulence.fill_spec {α : Type} [Field α] (canonical : ℕ → α)
    (min_amplitude max_amplitude min_phi max_phi min_omega max_omega : α) (k : ℕ) :
    (Turbulence.fill canonical min_amplitude max_amplitude min_phi max_phi min_omega
        max_omega k).1 = 3 * k
    ∧ (Turbulence.fill canonical min_amplitude max_amplitude min_phi max_phi min_omega
        max_omega k).2.length = k := by
  induction k with
  | zero => exact ⟨rfl, rfl⟩
  | succ k ih =>
    obtain ⟨h1, h2⟩ := ih
    constructor
    · simp only [Turbulence.fill, Turbulence.uniform_real_distribution, h1]
      ring
    · simp only [Turbulence.fill, List.length_append, h2, List.length_singleton]

/-- The direction is the normalized image of the base direction taken as a point. -/
theorem Camera.getDirection_eq_transformPoint (c : Camera ℝ) :
    c.getDirection = glm.normalize (glm.transformPoint c.transforms c.direction) := by
  simp only [Camera.getDirection, mulVec4, vec4.ofVec3, vec4.xyz, glm.transformPoint, mul_one]

/-- The up vector is the normalized image of the base up vector taken as a point. -/
theorem Camera.getUp_eq_transformPoint (c : Camera ℝ) :
    c.getUp = glm.normalize (glm.transformPoint c.transforms c.up) := by
  simp only [Camera.getUp, mulVec4, vec4.ofVec3, vec4.xyz, glm.transformPoint, mul_one]

/-- Normalizing keeps a positive second component positive. -/
theorem normalize_y_pos (v : vec3 ℝ) (hv : v ≠ ⟨0, 0, 0⟩) (hy : 0 < v.y) :
    0 < (glm.normalize v).y := by
  have hpos := sqrt_dot_self_pos v hv
  simp only [glm.normalize, scale, inversesqrt, sqrt_real]
  positivity

/-- Normalizing keeps a negative second component negative. -/
theorem normalize_y_neg (v : vec3 ℝ) (hv : v ≠ ⟨0, 0, 0⟩) (hy : v.y < 0) :
    (glm.normalize v).y < 0 := by
  have hpos := sqrt_dot_self_pos v hv
  simp only [glm.normalize, scale, inversesqrt, sqrt_real]
  exact mul_neg_of_neg_of_pos hy (by positivity)

/-- Direction reported by the camera of `main.cpp`. -/
theorem mainCamera_getDirection :
    (Camera.mainCamera ℝ).getDirection = glm.normalize ⟨0, -0.25, -1⟩ :=
  Camera.getDirection_new _ _ _ _ _ _ _

/-- Direction reported by the camera of `main.cpp` after `translate(0,1,0)`. -/
theorem mainCamera_translate_getDirection :
    ((Camera.mainCamera ℝ).translate 0 1 0).getDirection = glm.normalize ⟨0, 0.75, -1⟩ := by
  simp only [Camera.getDirection, Camera.translate, mulVec4_mul, mulVec4_translate_one,
    Camera.mainCamera, Camera.new, mulVec4_one, vec4.ofVec3, vec4.xyz]
  norm_num

/-- The rotation by one degree about the normalized axis `(1,0,1)` is not the identity. -/
theorem rodrigues_rotateDown_ne_one :
    rodrigues (Real.cos (Real.pi / 180)) (Real.sin (Real.pi / 180))
      (glm.normalize (⟨1, 0, 1⟩ : vec3 ℝ)) ≠ 1 := by
  intro h
  have h10 := congrFun (congrFun h 1) 0
  have hs : 0 < Real.sin (Real.pi / 180) := by
    apply Real.sin_pos_of_pos_of_lt_pi
    · have := Real.pi_pos
      positivity
    · have := Real.pi_pos
      linarith
  have hv : (⟨1, 0, 1⟩ : vec3 ℝ) ≠ ⟨0, 0, 0⟩ := by
    intro h; have hx := congrArg vec3.x h; norm_num at hx
  have hpos := sqrt_dot_self_pos _ hv
  have hy : (glm.normalize (⟨1, 0, 1⟩ : vec3 ℝ)).y = 0 := by
    simp [glm.normalize, scale]
  have hz : 0 < (glm.normalize (⟨1, 0, 1⟩ : vec3 ℝ)).z := by
    simp only [glm.normalize, scale, inversesqrt, sqrt_real]
    positivity
  simp only [rodrigues, Matrix.of_apply, Matrix.cons_val', Matrix.cons_val_zero,
    Matrix.cons_val_one, Matrix.head_cons, Matrix.empty_val', Matrix.cons_val_fin_one, hy,
    Matrix.one_apply] at h10
  norm_num at h10
  rcases h10 with h10 | h10
  · exact hs.ne' h10
  · exact hz.ne' h10

/-- The constructor's loop written out: after `k` iterations sinusoid `i < k` has its
amplitude from draw `3 * i`, its phase from draw `3 * i + 1` and its frequency from draw
`3 * i + 2` of the engine. -/
theorem Turbulence.fill_eq_map (canonical : ℕ → ℝ)
    (min_amplitude max_amplitude min_phi max_phi min_omega max_omega : ℝ) (k : ℕ) :
    (Turbulence.fill canonical min_amplitude max_amplitude min_phi max_phi min_omega
        max_omega k).2
      = (List.range k).map fun i =>
          ⟨min_amplitude + (max_amplitude - min_amplitude) * canonical (3 * i),
           min_phi + (max_phi - min_phi) * canonical (3 * i + 1),
           min_omega + (max_omega - min_omega) * canonical (3 * i + 2)⟩ := by
  induction k with
  | zero => rfl
  | succ k ih =>
    have h1 := (Turbulence.fill_spec canonical min_amplitude max_amplitude min_phi max_phi
      min_omega max_omega k).1
    simp only [Turbulence.fill, Turbulence.uniform_real_distribution, h1, ih, List.range_succ,
      List.map_append, List.map_cons, List.map_nil]

/-- The index two of the block is the index two of the matrix. -/
theorem castSucc_two : Fin.castSucc (2 : Fin 3) = (2 : Fin 4) := rfl

/-- The block of the identity is the identity. -/
theorem rotationBlock_one : glm.rotationBlock (1 : mat4 ℝ) = 1 := by
  ext i j
  fin_cases i <;> fin_cases j <;> simp [glm.rotationBlock, Matrix.one_apply, castSucc_two]

/-- The block of a product with an affine right factor is the product of the blocks. -/
theorem rotationBlock_mul (a b : mat4 ℝ) (hb : glm.IsAffine b) :
    glm.rotationBlock (a * b) = glm.rotationBlock a * glm.rotationBlock b := by
  obtain ⟨b0, b1, b2, -⟩ := hb
  ext i j
  fin_cases i <;> fin_cases j <;>
    simp [glm.rotationBlock, Matrix.mul_apply, Fin.sum_univ_four, Fin.sum_univ_three, b0, b1,
      b2, castSucc_two]

/-- The block of a translation matrix is the identity. -/
theorem rotationBlock_translate_one (v : vec3 ℝ) :
    glm.rotationBlock (glm.translate 1 v) = 1 := by
  rw [translate_one]
  ext i j
  fin_cases i <;> fin_cases j <;>
    simp [glm.rotationBlock, Matrix.one_apply, Matrix.vecHead, Matrix.vecTail, castSucc_two]

/-- The block of a rotation matrix is the block `Rotate`. -/
theorem rotationBlock_rotate_one (a : ℝ) (v : vec3 ℝ) :
    glm.rotationBlock (glm.rotate 1 a v) = Rotate a v := by
  rw [rotate_one]
  ext i j
  fin_cases i <;> fin_cases j <;>
    simp [glm.rotationBlock, Matrix.vecHead, Matrix.vecTail, castSucc_two]

/-- For a non-zero axis the block `Rotate` is orthogonal. -/
theorem Rotate_transpose_mul_self (a : ℝ) (v : vec3 ℝ) (hv : v ≠ ⟨0, 0, 0⟩) :
    (Rotate a v).transpose * Rotate a v = 1 := by
  have hn := dot_normalize_self v hv
  have hcs := Real.sin_sq_add_cos_sq a
  obtain ⟨e00, e01, e02, e10, e11, e12, e20, e21, e22⟩ := Rotate_entries a v
  simp only [dot] at hn
  generalize glm.normalize v = n at *
  generalize Real.cos a = c at *
  generalize Real.sin a = s at *
  ext i j
  fin_cases i <;> fin_cases j <;>
    simp [Matrix.mul_apply, Fin.sum_univ_three, Matrix.one_apply, Matrix.transpose_apply]
  all_goals simp only [e00, e01, e02, e10, e11, e12, e20, e21, e22]
  · linear_combination (1 - n.x * n.x) * hcs + ((1 - c) ^ 2 * (n.x * n.x) + s ^ 2) * hn
  · linear_combination (0 - n.x * n.y) * hcs + ((1 - c) ^ 2 * (n.x * n.y)) * hn
  · linear_combination (0 - n.x * n.z) * hcs + ((1 - c) ^ 2 * (n.x * n.z)) * hn
  · linear_combination (0 - n.y * n.x) * hcs + ((1 - c) ^ 2 * (n.y * n.x)) * hn
  · linear_combination (1 - n.y * n.y) * hcs + ((1 - c) ^ 2 * (n.y * n.y) + s ^ 2) * hn
  · linear_combination (0 - n.y * n.z) * hcs + ((1 - c) ^ 2 * (n.y * n.z)) * hn
  · linear_combination (0 - n.z * n.x) * hcs + ((1 - c) ^ 2 * (n.z * n.x)) * hn
  · linear_combination (0 - n.z * n.y) * hcs + ((1 - c) ^ 2 * (n.z * n.y)) * hn
  · linear_combination (1 - n.z * n.z) * hcs + ((1 - c) ^ 2 * (n.z * n.z) + s ^ 2) * hn

/-- For a non-zero axis the block `Rotate` has determinant one. -/
theorem Rotate_det (a : ℝ) (v : vec3 ℝ) (hv : v ≠ ⟨0, 0, 0⟩) : (Rotate a v).det = 1 := by
  have hn := dot_normalize_self v hv
  have hcs := Real.sin_sq_add_cos_sq a
  obtain ⟨e00, e01, e02, e10, e11, e12, e20, e21, e22⟩ := Rotate_entries a v
  simp only [dot] at hn
  rw [Matrix.det_fin_three, e00, e01, e02, e10, e11, e12, e20, e21, e22]
  generalize glm.normalize v = n at *
  generalize Real.cos a = c at *
  generalize Real.sin a = s at *
  linear_combination (1 + (1 - c) * (n.x * n.x + n.y * n.y + n.z * n.z - 1)) * hcs
    + (s ^ 2 + (1 - c) + (1 - c) * s ^ 2 * (n.x * n.x + n.y * n.y + n.z * n.z - 1)) * hn

/-- The identity is rigid. -/
theorem isRigid_one : glm.IsRigid (1 : mat4 ℝ) := by
  refine ⟨?_, ?_, isAffine_one⟩
  · rw [rotationBlock_one, Matrix.transpose_one, Matrix.one_mul]
  · rw [rotationBlock_one, Matrix.det_one]

/-- A product of rigid matrices is rigid. -/
theorem isRigid_mul {a b : mat4 ℝ} (ha : glm.IsRigid a) (hb : glm.IsRigid b) :
    glm.IsRigid (a * b) := by
  obtain ⟨ha1, ha2, ha3⟩ := ha
  obtain ⟨hb1, hb2, hb3⟩ := hb
  refine ⟨?_, ?_, isAffine_mul ha3 hb3⟩
  · rw [rotationBlock_mul a b hb3, Matrix.transpose_mul, Matrix.mul_assoc,
      ← Matrix.mul_assoc (glm.rotationBlock a).transpose, ha1, Matrix.one_mul, hb1]
  · rw [rotationBlock_mul a b hb3, Matrix.det_mul, ha2, hb2, mul_one]

/-- A translation matrix is rigid. -/
theorem isRigid_translate_one (v : vec3 ℝ) : glm.IsRigid (glm.translate 1 v) := by
  refine ⟨?_, ?_, isAffine_translate_one v⟩
  · rw [rotationBlock_translate_one, Matrix.transpose_one, Matrix.one_mul]
  · rw [rotationBlock_translate_one, Matrix.det_one]

/-- A rotation matrix about a non-zero axis is rigid. -/
theorem isRigid_rotate_one (a : ℝ) (v : vec3 ℝ) (hv : v ≠ ⟨0, 0, 0⟩) :
    glm.IsRigid (glm.rotate 1 a v) := by
  refine ⟨?_, ?_, isAffine_rotate_one a v⟩
  · rw [rotationBlock_rotate_one, Rotate_transpose_mul_self a v hv]
  · rw [rotationBlock_rotate_one, Rotate_det a v hv]

/-- `translate` keeps the accumulated transform rigid, whatever the offset. -/
theorem Camera.translate_isRigid (c : Camera ℝ) (x y z : ℝ)
    (hc : glm.IsRigid c.transforms) : glm.IsRigid (c.translate x y z).transforms :=
  isRigid_mul (isRigid_translate_one _) hc

/-- A motion call keeps the accumulated transform rigid. -/
theorem Camera.call_isRigid (c : Camera ℝ) (k : Call ℝ) (hk : k.IsMotionCall)
    (hc : glm.IsRigid c.transforms) : glm.IsRigid (c.call k).transforms := by
  cases k with
  | translate x y z => exact Camera.translate_isRigid c x y z hc
  | rotate x y z angle => exact isRigid_mul (isRigid_rotate_one _ _ hk) hc
  | moveBack => exact Camera.translate_isRigid c _ _ _ hc
  | moveDown => exact Camera.translate_isRigid c _ _ _ hc
  | moveFront => exact Camera.translate_isRigid c _ _ _ hc
  | moveLeft => exact Camera.translate_isRigid c _ _ _ hc
  | moveRight => exact Camera.translate_isRigid c _ _ _ hc
  | moveUp => exact Camera.translate_isRigid c _ _ _ hc
  | rotateDown =>
    exact isRigid_mul (isRigid_rotate_one _ _
      (by intro h; have hx := congrArg vec3.x h; norm_num at hx)) hc
  | rotateLeft => exact hc
  | rotateRight => exact hc
  | rotateUp => exact hc
  | resetTransforms => exact isRigid_one
  | setTransformMat transform => exact absurd hk id
  | setWidth new_width => exact absurd hk id
  | setHeight new_height => exact absurd hk id

/-- The determinant of an affine matrix is the determinant of its upper-left block. -/
theorem det_of_isAffine (m : mat4 ℝ) (hm : glm.IsAffine m) :
    m.det = (glm.rotationBlock m).det := by
  obtain ⟨h0, h1, h2, h3⟩ := hm
  rw [Matrix.det_succ_row m (Fin.last 3), Fin.sum_univ_castSucc]
  have hz : ∀ j : Fin 3, m (Fin.last 3) (Fin.castSucc j) = 0 := by
    intro j
    fin_cases j
    · exact h0
    · exact h1
    · exact h2
  have hl : m (Fin.last 3) (Fin.last 3) = 1 := h3
  simp only [hz, hl, mul_zero, zero_mul, Finset.sum_const_zero, zero_add, mul_one,
    Fin.succAbove_last]
  have hs : ((-1 : ℝ)) ^ ((Fin.last 3 : Fin 4) + (Fin.last 3 : Fin 4) : ℕ) = 1 := by
    norm_num [Fin.last]
  rw [hs, one_mul]
  rfl

/-- A rigid matrix is invertible. -/
theorem isUnit_of_isRigid (m : mat4 ℝ) (hm : glm.IsRigid m) : IsUnit m := by
  rw [Matrix.isUnit_iff_isUnit_det, det_of_isAffine m hm.2.2, hm.2.1]
  exact isUnit_one

/-- Dropping the fourth component of the image of a point gives `R * p + t`. -/
theorem xyz_mulVec4_ofVec3 (m : mat4 ℝ) (p : vec3 ℝ) :
    vec4.xyz (mulVec4 m (vec4.ofVec3 p 1)) = glm.transformPoint m p := by
  simp only [mulVec4, vec4.ofVec3, vec4.xyz, glm.transformPoint, mul_one]

/-- A unit vector is its own normalization. -/
theorem normalize_of_unit (w : vec3 ℝ) (hw : dot w w = 1) : glm.normalize w = w := by
  have hs : glm.normalize w = scale w (1 / Real.sqrt (dot w w)) := rfl
  rw [hs, hw]
  simp [scale]

/-- The opposite of a unit vector is a unit vector. -/
theorem dot_neg_self (w : vec3 ℝ) : dot (-w) (-w) = dot w w := by
  simp only [dot, vec3_neg_def]
  ring

/-- Scaling by a negative factor reverses the normalized vector. -/
theorem normalize_scale_neg (v : vec3 ℝ) (hv : v ≠ ⟨0, 0, 0⟩) (k : ℝ) (hk : k < 0) :
    glm.normalize (scale v k) = -glm.normalize v := by
  have hpos := sqrt_dot_self_pos v hv
  have hd : dot (scale v k) (scale v k) = (-k) * (-k) * dot v v := by
    simp only [dot, scale]
    ring
  have hsq : Real.sqrt (dot (scale v k) (scale v k)) = (-k) * Real.sqrt (dot v v) := by
    rw [hd, Real.sqrt_mul (mul_self_nonneg (-k)), Real.sqrt_mul_self (by linarith)]
  have hs : glm.normalize (scale v k)
      = scale (scale v k) (1 / Real.sqrt (dot (scale v k) (scale v k))) := rfl
  have hn : glm.normalize v = scale v (1 / Real.sqrt (dot v v)) := rfl
  rw [hs, hn, hsq]
  have hk0 : k ≠ 0 := hk.ne
  have hp0 : Real.sqrt (dot v v) ≠ 0 := hpos.ne'
  ext <;> simp only [scale, vec3_neg_def] <;> field_simp <;> ring

/-- In an affine state the point that `moveBack` leaves as transformed base direction is the
old one scaled by `1 - 0.1 / |v|`. -/
theorem Camera.transformPoint_moveBack (c : Camera ℝ) (hc : glm.IsAffine c.transforms)
    (hv : glm.transformPoint c.transforms c.direction ≠ ⟨0, 0, 0⟩) :
    glm.transformPoint c.moveBack.transforms c.moveBack.direction
      = scale (glm.transformPoint c.transforms c.direction)
          (1 - 1 / glm.length (glm.transformPoint c.transforms c.direction) * 0.1) := by
  have hw := mulVec4_w_of_isAffine hc c.direction
  have hnn := normalize_normalize _ hv
  rw [← xyz_mulVec4_ofVec3, ← xyz_mulVec4_ofVec3] at *
  simp only [Camera.moveBack, Camera.getDirection, Camera.translate, mulVec4_mul,
    mulVec4_translate_one, hw, mul_one, hnn]
  generalize mulVec4 c.transforms (vec4.ofVec3 c.direction 1) = p
  ext <;> simp only [vec4.xyz, scale, glm.normalize, inversesqrt, sqrt_real, glm.length] <;>
    ring

/-- A vector longer than `0.1` keeps its direction under `moveBack`. -/
theorem Camera.getDirection_moveBack_far (c : Camera ℝ) (hc : glm.IsAffine c.transforms)
    (hv : glm.transformPoint c.transforms c.direction ≠ ⟨0, 0, 0⟩)
    (hfar : 0.1 < glm.length (glm.transformPoint c.transforms c.direction)) :
    c.moveBack.getDirection = c.getDirection := by
  rw [Camera.getDirection_eq_transformPoint, Camera.getDirection_eq_transformPoint,
    Camera.transformPoint_moveBack c hc hv]
  apply normalize_scale_pos _ hv
  have hpos : 0 < glm.length (glm.transformPoint c.transforms c.direction) := by
    linarith
  rw [sub_pos, div_mul_eq_mul_div, one_mul, div_lt_one hpos]
  exact hfar

/-- A vector shorter than `0.1` has its direction reversed by `moveBack`. -/
theorem Camera.getDirection_moveBack_near (c : Camera ℝ) (hc : glm.IsAffine c.transforms)
    (hv : glm.transformPoint c.transforms c.direction ≠ ⟨0, 0, 0⟩)
    (hnear : glm.length (glm.transformPoint c.transforms c.direction) < 0.1) :
    c.moveBack.getDirection = -c.getDirection := by
  rw [Camera.getDirection_eq_transformPoint, Camera.getDirection_eq_transformPoint,
    Camera.transformPoint_moveBack c hc hv]
  apply normalize_scale_neg _ hv
  have hpos : 0 < glm.length (glm.transformPoint c.transforms c.direction) :=
    sqrt_dot_self_pos _ hv
  rw [sub_neg, div_mul_eq_mul_div, one_mul, one_lt_div hpos]
  exact hnear

/-- Translating by an offset after its opposite restores the state. -/
theorem Camera.translate_translate_neg (c : Camera ℝ) (dx dy dz : ℝ) :
    (c.translate (-dx) (-dy) (-dz)).translate dx dy dz = c := by
  have h := Camera.translate_neg_translate c (-dx) (-dy) (-dz)
  simp only [neg_neg] at h
  exact h

/-- When the transformed base direction is longer than `0.1`, `moveFront` undoes
`moveBack`. -/
theorem Camera.moveFront_moveBack_far (c : Camera ℝ) (hc : glm.IsAffine c.transforms)
    (hv : glm.transformPoint c.transforms c.direction ≠ ⟨0, 0, 0⟩)
    (hfar : 0.1 < glm.length (glm.transformPoint c.transforms c.direction)) :
    c.moveBack.moveFront = c := by
  have h := Camera.getDirection_moveBack_far c hc hv hfar
  have hf : c.moveBack.moveFront
      = c.moveBack.translate (scale (glm.normalize c.moveBack.getDirection) 0.1).x
          (scale (glm.normalize c.moveBack.getDirection) 0.1).y
          (scale (glm.normalize c.moveBack.getDirection) 0.1).z := rfl
  have hb : c.moveBack
      = c.translate (-(scale (glm.normalize c.getDirection) 0.1).x)
          (-(scale (glm.normalize c.getDirection) 0.1).y)
          (-(scale (glm.normalize c.getDirection) 0.1).z) := rfl
  rw [hf, h]
  nth_rewrite 1 [hb]
  exact Camera.translate_translate_neg c _ _ _

/-- When the transformed base direction is shorter than `0.1`, `moveBack` followed by
`moveFront` moves the position by `-0.2` times the direction. -/
theorem Camera.moveFront_moveBack_near (c : Camera ℝ) (hc : glm.IsAffine c.transforms)
    (hv : glm.transformPoint c.transforms c.direction ≠ ⟨0, 0, 0⟩)
    (hnear : glm.length (glm.transformPoint c.transforms c.direction) < 0.1) :
    c.moveBack.moveFront.getPosition - c.getPosition = scale c.getDirection (-0.2) := by
  have h := Camera.getDirection_moveBack_near c hc hv hnear
  have hu : dot c.getDirection c.getDirection = 1 := by
    rw [Camera.getDirection_eq_transformPoint]
    exact dot_normalize_self _ hv
  have hn1 := normalize_of_unit _ hu
  have hn2 := normalize_of_unit (-c.getDirection) (by rw [dot_neg_self]; exact hu)
  have hb : c.moveBack
      = c.translate (-(scale (glm.normalize c.getDirection) 0.1).x)
          (-(scale (glm.normalize c.getDirection) 0.1).y)
          (-(scale (glm.normalize c.getDirection) 0.1).z) := rfl
  have hf : c.moveBack.moveFront
      = c.moveBack.translate (scale (glm.normalize c.moveBack.getDirection) 0.1).x
          (scale (glm.normalize c.moveBack.getDirection) 0.1).y
          (scale (glm.normalize c.moveBack.getDirection) 0.1).z := rfl
  have hcb : glm.IsAffine c.moveBack.transforms :=
    isAffine_mul (isAffine_translate_one _) hc
  rw [hf, Camera.getPosition_translate _ hcb, h, hn2, hb, Camera.getPosition_translate _ hc,
    hn1]
  ext <;> simp only [scale, vec3_add_def, vec3_sub_def, vec3_neg_def] <;> ring

/-- Length of a vector scaled by `-0.2`. -/
theorem length_scale_unit (u : vec3 ℝ) (hu : dot u u = 1) :
    glm.length (scale u (-0.2)) = 0.2 := by
  have hd : dot (scale u (-0.2)) (scale u (-0.2)) = 0.2 * 0.2 * dot u u := by
    simp only [dot, scale]
    ring
  simp only [glm.length, sqrt_real]
  rw [hd, hu, mul_one, Real.sqrt_mul_self (by norm_num)]

/-- A camera looking down the negative z axis, translated by `0.95` along z: the image of its
base direction is `(0, 0, -0.05)`. -/
theorem nearExample_transformPoint :
    glm.transformPoint
      ((Camera.new (⟨0, 0, 0⟩ : vec3 ℝ) ⟨0, 0, -1⟩ 45 0.1 300 1400 800).run
        [Call.translate 0 0 0.95]).getTransformMat
      ((Camera.new (⟨0, 0, 0⟩ : vec3 ℝ) ⟨0, 0, -1⟩ 45 0.1 300 1400 800).run
        [Call.translate 0 0 0.95]).direction
      = ⟨0, 0, -0.05⟩ := by
  simp only [Camera.run, List.foldl, Camera.call, Camera.translate, Camera.new,
    Camera.getTransformMat, glm.transformPoint, translate_one, Matrix.mul_one]
  simp [Matrix.vecHead, Matrix.vecTail]
  norm_num

/-- The vector `(0, 0, -0.05)` is shorter than `0.1`. -/
theorem length_nearExample : glm.length (⟨0, 0, -0.05⟩ : vec3 ℝ) < 0.1 := by
  simp only [glm.length, sqrt_real, dot]
  rw [Real.sqrt_lt' (by norm_num)]
  norm_num

/-- In an affine state `translate` displaces the position by its offset. -/
theorem Camera.translate_step (c : Camera ℝ) (hc : glm.IsAffine c.transforms)
    (dx dy dz : ℝ) :
    (c.translate dx dy dz).getPosition - c.getPosition = ⟨dx, dy, dz⟩ := by
  rw [Camera.getPosition_translate c hc]
  ext <;> simp only [vec3_add_def, vec3_sub_def] <;> ring

/-- The reported direction is a unit vector when the transformed base direction is not zero. -/
theorem Camera.dot_getDirection (c : Camera ℝ)
    (hv : glm.transformPoint c.transforms c.direction ≠ ⟨0, 0, 0⟩) :
    dot c.getDirection c.getDirection = 1 := by
  rw [Camera.getDirection_eq_transformPoint]
  exact dot_normalize_self _ hv

/-- The reported up vector is a unit vector when the transformed base up vector is not zero. -/
theorem Camera.dot_getUp (c : Camera ℝ)
    (hv : glm.transformPoint c.transforms c.up ≠ ⟨0, 0, 0⟩) :
    dot c.getUp c.getUp = 1 := by
  rw [Camera.getUp_eq_transformPoint]
  exact dot_normalize_self _ hv

/-- Step of `moveFront`: `0.1` times the direction. -/
theorem Camera.moveFront_step (c : Camera ℝ) (hc : glm.IsAffine c.transforms)
    (hv : glm.transformPoint c.transforms c.direction ≠ ⟨0, 0, 0⟩) :
    c.moveFront.getPosition - c.getPosition = scale c.getDirection 0.1 := by
  have hn := normalize_of_unit _ (Camera.dot_getDirection c hv)
  simp only [Camera.moveFront, Camera.translate_step c hc, hn]

/-- Step of `moveBack`: `-0.1` times the direction. -/
theorem Camera.moveBack_step (c : Camera ℝ) (hc : glm.IsAffine c.transforms)
    (hv : glm.transformPoint c.transforms c.direction ≠ ⟨0, 0, 0⟩) :
    c.moveBack.getPosition - c.getPosition = -scale c.getDirection 0.1 := by
  have hn := normalize_of_unit _ (Camera.dot_getDirection c hv)
  simp only [Camera.moveBack, Camera.translate_step c hc, hn, vec3_neg_def]

/-- Step of `moveUp`: `0.1` times the up vector. -/
theorem Camera.moveUp_step (c : Camera ℝ) (hc : glm.IsAffine c.transforms)
    (hv : glm.transformPoint c.transforms c.up ≠ ⟨0, 0, 0⟩) :
    c.moveUp.getPosition - c.getPosition = scale c.getUp 0.1 := by
  have hn := normalize_of_unit _ (Camera.dot_getUp c hv)
  simp only [Camera.moveUp, Camera.translate_step c hc, hn]

/-- Step of `moveDown`: `-0.1` times the up vector. -/
theorem Camera.moveDown_step (c : Camera ℝ) (hc : glm.IsAffine c.transforms)
    (hv : glm.transformPoint c.transforms c.up ≠ ⟨0, 0, 0⟩) :
    c.moveDown.getPosition - c.getPosition = -scale c.getUp 0.1 := by
  have hn := normalize_of_unit _ (Camera.dot_getUp c hv)
  simp only [Camera.moveDown, Camera.translate_step c hc, hn, vec3_neg_def]

/-- Step of `moveRight`: the normalized cross product of direction and up; the factor `0.1`
applied to the direction is cancelled by the final normalization. -/
theorem Camera.moveRight_step (c : Camera ℝ) (hc : glm.IsAffine c.transforms)
    (hd : glm.transformPoint c.transforms c.direction ≠ ⟨0, 0, 0⟩)
    (hu : glm.transformPoint c.transforms c.up ≠ ⟨0, 0, 0⟩)
    (hcross : cross c.getDirection c.getUp ≠ ⟨0, 0, 0⟩) :
    c.moveRight.getPosition - c.getPosition = glm.normalize (cross c.getDirection c.getUp) := by
  have hn1 := normalize_of_unit _ (Camera.dot_getDirection c hd)
  have hn2 := normalize_of_unit _ (Camera.dot_getUp c hu)
  have hs : cross (scale c.getDirection 0.1) c.getUp
      = scale (cross c.getDirection c.getUp) 0.1 := by
    ext <;> simp only [cross, scale] <;> ring
  simp only [Camera.moveRight, Camera.translate_step c hc, hn1, hn2, hs]
  exact normalize_scale_pos _ hcross _ (by norm_num)

/-- Step of `moveLeft`: the opposite of the normalized cross product of direction and up. -/
theorem Camera.moveLeft_step (c : Camera ℝ) (hc : glm.IsAffine c.transforms)
    (hd : glm.transformPoint c.transforms c.direction ≠ ⟨0, 0, 0⟩)
    (hu : glm.transformPoint c.transforms c.up ≠ ⟨0, 0, 0⟩)
    (hcross : cross c.getDirection c.getUp ≠ ⟨0, 0, 0⟩) :
    c.moveLeft.getPosition - c.getPosition
      = -glm.normalize (cross c.getDirection c.getUp) := by
  have hn1 := normalize_of_unit _ (Camera.dot_getDirection c hd)
  have hn2 := normalize_of_unit _ (Camera.dot_getUp c hu)
  have hs : -cross (scale c.getDirection 0.1) c.getUp
      = scale (cross c.getDirection c.getUp) (-0.1) := by
    ext <;> simp only [cross, scale, vec3_neg_def] <;> ring
  simp only [Camera.moveLeft, Camera.translate_step c hc, hn1, hn2]
  rw [hs]
  exact normalize_scale_neg _ hcross _ (by norm_num)

/-- A unit vector has length one. -/
theorem length_of_unit (w : vec3 ℝ) (hw : dot w w = 1) : glm.length w = 1 := by
  simp only [glm.length, sqrt_real, hw, Real.sqrt_one]

/-- The opposite vector has the same length. -/
theorem length_neg (w : vec3 ℝ) : glm.length (-w) = glm.length w := by
  simp only [glm.length, dot_neg_self]

/-- A unit vector scaled by `0.1` has length `0.1`. -/
theorem length_scale_tenth (u : vec3 ℝ) (hu : dot u u = 1) :
    glm.length (scale u 0.1) = 0.1 := by
  have hd : dot (scale u 0.1) (scale u 0.1) = 0.1 * 0.1 * dot u u := by
    simp only [dot, scale]
    ring
  simp only [glm.length, sqrt_real]
  rw [hd, hu, mul_one, Real.sqrt_mul_self (by norm_num)]

/-- The identity maps every point to itself. -/
theorem transformPoint_one (p : vec3 ℝ) : glm.transformPoint 1 p = p := by
  ext <;> simp [glm.transformPoint, Matrix.one_apply]

/-- On the camera of `main.cpp` the cross product of direction and up is a positive multiple
of the x axis. -/
theorem mainCamera_cross :
    cross (Camera.mainCamera ℝ).getDirection (Camera.mainCamera ℝ).getUp
      = scale ⟨1, 0, 0⟩ (1 / Real.sqrt (dot (⟨0, -0.25, -1⟩ : vec3 ℝ) ⟨0, -0.25, -1⟩)) := by
  have hu : (Camera.mainCamera ℝ).getUp = ⟨0, 1, 0⟩ := Camera.getUp_new _ _ _ _ _ _ _
  rw [mainCamera_getDirection, hu]
  ext <;> simp [cross, scale, glm.normalize, inversesqrt]

/-- The base direction of the camera of `main.cpp` is not zero. -/
theorem mainCamera_direction_ne : (⟨0, -0.25, -1⟩ : vec3 ℝ) ≠ ⟨0, 0, 0⟩ := by
  intro h
  have hz := congrArg vec3.z h
  norm_num at hz

/-- On the camera of `main.cpp` the normalized cross product of direction and up is the x
axis. -/
theorem mainCamera_normalize_cross :
    glm.normalize (cross (Camera.mainCamera ℝ).getDirection (Camera.mainCamera ℝ).getUp)
      = ⟨1, 0, 0⟩ := by
  have hx : (⟨1, 0, 0⟩ : vec3 ℝ) ≠ ⟨0, 0, 0⟩ := by
    intro h
    have h1 := congrArg vec3.x h
    norm_num at h1
  have hpos := sqrt_dot_self_pos _ mainCamera_direction_ne
  rw [mainCamera_cross, normalize_scale_pos _ hx _ (by positivity)]
  exact normalize_of_unit _ (by simp [dot])

/-- The test `isZero` holds exactly of the zero vector. -/
theorem isZero_iff (v : vec3 ℝ) : glm.isZero v = true ↔ v = ⟨0, 0, 0⟩ := by
  constructor
  · intro h
    simp only [glm.isZero, Bool.and_eq_true, decide_eq_true_eq] at h
    obtain ⟨⟨hx, hy⟩, hz⟩ := h
    ext
    · exact hx
    · exact hy
    · exact hz
  · intro h
    rw [h]
    simp [glm.isZero]

/-- The test `isZero` fails on a non-zero vector. -/
theorem isZero_eq_false (v : vec3 ℝ) (hv : v ≠ ⟨0, 0, 0⟩) : glm.isZero v = false := by
  rcases h : glm.isZero v with _ | _
  · rfl
  · exact absurd ((isZero_iff v).mp h) hv

/-- A checked call that has a state normalizes no zero vector and has the state of the
call. -/
theorem Camera.callChecked_eq_some (c next : Camera ℝ) (k : Call ℝ)
    (h : c.callChecked k = some next) : k.normalizesZero c = false ∧ next = c.call k := by
  unfold Camera.callChecked at h
  rcases hk : k.normalizesZero c with _ | _
  · rw [hk] at h
    simp only [Bool.false_eq_true, if_false, Option.some.injEq] at h
    exact ⟨rfl, h.symm⟩
  · rw [hk] at h
    simp only [if_true] at h
    exact absurd h (by simp)

/-- A checked call that normalizes no zero vector has the state of the call. -/
theorem Camera.callChecked_of_defined (c : Camera ℝ) (k : Call ℝ)
    (hk : k.normalizesZero c = false) : c.callChecked k = some (c.call k) := by
  simp only [Camera.callChecked, hk, Bool.false_eq_true, if_false]

/-- A checked run goes on after a call that normalizes no zero vector. -/
theorem Camera.runChecked_cons_of_defined (c : Camera ℝ) (k : Call ℝ) (ks : List (Call ℝ))
    (hk : k.normalizesZero c = false) :
    c.runChecked (k :: ks) = (c.call k).runChecked ks := by
  simp only [Camera.runChecked, Camera.callChecked_of_defined c k hk, Option.some_bind]

/-- A checked run that has a state has the state of the run. -/
theorem Camera.runChecked_eq_some (calls : List (Call ℝ)) (c last : Camera ℝ)
    (h : c.runChecked calls = some last) : last = c.run calls := by
  induction calls generalizing c with
  | nil =>
    simp only [Camera.runChecked, Option.some.injEq] at h
    exact h.symm
  | cons k ks ih =>
    simp only [Camera.runChecked] at h
    rcases hk : c.callChecked k with _ | next
    · rw [hk] at h
      exact absurd h (by simp)
    · rw [hk, Option.some_bind] at h
      obtain ⟨-, hnext⟩ := Camera.callChecked_eq_some c next k hk
      rw [hnext] at h
      exact ih (c.call k) h

/-- Every state that a checked run of motion calls reaches from a rigid state is rigid. -/
theorem Camera.runChecked_isRigid (calls : List (Call ℝ)) (c last : Camera ℝ)
    (hcalls : ∀ k ∈ calls, k.IsMotionCall) (hc : glm.IsRigid c.transforms)
    (h : c.runChecked calls = some last) : glm.IsRigid last.transforms := by
  induction calls generalizing c with
  | nil =>
    simp only [Camera.runChecked, Option.some.injEq] at h
    rw [← h]
    exact hc
  | cons k ks ih =>
    simp only [Camera.runChecked] at h
    rcases hk : c.callChecked k with _ | next
    · rw [hk] at h
      exact absurd h (by simp)
    · rw [hk, Option.some_bind] at h
      obtain ⟨-, hnext⟩ := Camera.callChecked_eq_some c next k hk
      rw [hnext] at h
      exact ih (c.call k) (fun q hq => hcalls q (List.mem_cons_of_mem _ hq))
        (Camera.call_isRigid c k (hcalls k (List.mem_cons_self _ _)) hc) h

/-- After `translate(0,-1,0)` the camera of `main.cpp` maps its base up vector, taken as a
point, to the zero vector. -/
theorem mainCamera_translate_up_point :
    vec4.xyz (mulVec4 ((Camera.mainCamera ℝ).translate 0 (-1) 0).transforms
        (vec4.ofVec3 ((Camera.mainCamera ℝ).translate 0 (-1) 0).up 1)) = ⟨0, 0, 0⟩ := by
  simp only [Camera.translate, mulVec4_mul, mulVec4_translate_one, Camera.mainCamera,
    Camera.new, mulVec4_one, vec4.ofVec3, vec4.xyz]
  norm_num

/-- After `translate(0,0,1)` the camera of `main.cpp` maps its base up vector, taken as a
point, to `(0,1,1)`. -/
theorem mainCamera_translate_z_up_point :
    vec4.xyz (mulVec4 ((Camera.mainCamera ℝ).translate 0 0 1).transforms
        (vec4.ofVec3 ((Camera.mainCamera ℝ).translate 0 0 1).up 1)) = ⟨0, 1, 1⟩ := by
  simp only [Camera.translate, mulVec4_mul, mulVec4_translate_one, Camera.mainCamera,
    Camera.new, mulVec4_one, vec4.ofVec3, vec4.xyz]
  norm_num

/-- The vector `(0,1,1)` is not zero. -/
theorem up_point_ne : (⟨0, 1, 1⟩ : vec3 ℝ) ≠ ⟨0, 0, 0⟩ := by
  intro h
  have hz := congrArg vec3.z h
  norm_num at hz

/-- On the camera of `main.cpp` the run `translate(0,0,1)`, `moveUp`, `rotateDown` normalizes
no zero vector. -/
theorem mainCamera_runChecked :
    (Camera.mainCamera ℝ).runChecked [Call.translate 0 0 1, Call.moveUp, Call.rotateDown]
      = some ((Camera.mainCamera ℝ).run
          [Call.translate 0 0 1, Call.moveUp, Call.rotateDown]) := by
  have h1 : (Call.translate (0 : ℝ) 0 1).normalizesZero (Camera.mainCamera ℝ) = false := rfl
  have h2 : (Call.moveUp : Call ℝ).normalizesZero
      ((Camera.mainCamera ℝ).call (Call.translate 0 0 1)) = false := by
    have hup : ((Camera.mainCamera ℝ).translate 0 0 1).getUp = glm.normalize ⟨0, 1, 1⟩ := by
      unfold Camera.getUp
      rw [mainCamera_translate_z_up_point]
    have hne : glm.normalize (⟨0, 1, 1⟩ : vec3 ℝ) ≠ ⟨0, 0, 0⟩ := by
      intro h
      have hy := normalize_y_pos _ up_point_ne (by norm_num)
      rw [h] at hy
      exact lt_irrefl _ hy
    simp only [Call.normalizesZero, Camera.upNormalizesZero, Camera.call,
      mainCamera_translate_z_up_point, hup, isZero_eq_false _ up_point_ne,
      isZero_eq_false _ hne, Bool.or_self]
  have h3 : (Call.rotateDown : Call ℝ).normalizesZero
      (((Camera.mainCamera ℝ).call (Call.translate 0 0 1)).call Call.moveUp) = false := by
    simp only [Call.normalizesZero]
    apply isZero_eq_false
    intro h
    have hx := congrArg vec3.x h
    norm_num at hx
  rw [Camera.runChecked_cons_of_defined _ _ _ h1, Camera.runChecked_cons_of_defined _ _ _ h2,
    Camera.runChecked_cons_of_defined _ _ _ h3]
  rfl

end Lemmas

/-! ## Properties of the camera and of the turbulence generator -/

/-- C1: a freshly constructed camera (direction non-zero, accumulated transform still the
identity) reports its base pose: `getPosition` is the given position, `getDirection` is the
normalized given direction, `getUp` is `(0,1,0)`, `getView` is the look-at matrix of that pose
and `getCameraMatrix` is `getProjection * getView`. -/
theorem C1_fresh_camera_pose (position direction : vec3 ℝ) (fov near far : ℝ)
    (width height : Int) (_hdir : direction ≠ ⟨0, 0, 0⟩) :
    (Camera.new position direction fov near far width height).getTransformMat = 1
    ∧ (Camera.new position direction fov near far width height).getPosition = position
    ∧ (Camera.new position direction fov near far width height).getDirection
        = glm.normalize direction
    ∧ (Camera.new position direction fov near far width height).getUp = ⟨0, 1, 0⟩
    ∧ (Camera.new position direction fov near far width height).getView
        = lookAt position (position + glm.normalize direction) ⟨0, 1, 0⟩
    ∧ (Camera.new position direction fov near far width height).getCameraMatrix
        = (Camera.new position direction fov near far width height).getProjection
          * lookAt position (position + glm.normalize direction) ⟨0, 1, 0⟩ := by
  have hp := Camera.getPosition_new position direction fov near far width height
  have hd := Camera.getDirection_new position direction fov near far width height
  have hu := Camera.getUp_new position direction fov near far width height
  have hv : (Camera.new position direction fov near far width height).getView
      = lookAt position (position + glm.normalize direction) ⟨0, 1, 0⟩ := by
    unfold Camera.getView
    rw [hp, hd, hu]
  refine ⟨rfl, hp, hd, hu, hv, ?_⟩
  unfold Camera.getCameraMatrix
  rw [hv]

/-- Witness for C1: the camera that `main.cpp` creates. -/
theorem C1_fresh_camera_pose_witness :
    (Camera.new (⟨0, 0.75, 3⟩ : vec3 ℝ) ⟨0, -0.25, -1⟩ 45 0.1 300 1400 800).getPosition
      = ⟨0, 0.75, 3⟩ :=
  (C1_fresh_camera_pose ⟨0, 0.75, 3⟩ ⟨0, -0.25, -1⟩ 45 0.1 300 1400 800
    (by intro h; have hz := congrArg vec3.z h; norm_num at hz)).2.1

/-- C2: after any finite sequence of calls (translate, rotate, the move and rotate
primitives, setTransformMat, setWidth, setHeight, resetTransforms) on a constructed camera,
`resetTransforms` makes the accumulated transform the identity and makes `getPosition`,
`getDirection` and `getUp` the base position, the normalized base direction and `(0,1,0)`,
which are also the values a fresh camera reports; a second `resetTransforms` changes
nothing. -/
theorem C2_reset_restores_base_pose (position direction : vec3 ℝ) (fov near far : ℝ)
    (width height : Int) (calls : List (Call ℝ)) :
    (((Camera.new position direction fov near far width height).run
        calls).resetTransforms).getTransformMat = 1
    ∧ (((Camera.new position direction fov near far width height).run
        calls).resetTransforms).getPosition = position
    ∧ (((Camera.new position direction fov near far width height).run
        calls).resetTransforms).getDirection = glm.normalize direction
    ∧ (((Camera.new position direction fov near far width height).run
        calls).resetTransforms).getUp = ⟨0, 1, 0⟩
    ∧ (((Camera.new position direction fov near far width height).run
        calls).resetTransforms).getPosition
        = (Camera.new position direction fov near far width height).getPosition
    ∧ (((Camera.new position direction fov near far width height).run
        calls).resetTransforms).getDirection
        = (Camera.new position direction fov near far width height).getDirection
    ∧ (((Camera.new position direction fov near far width height).run
        calls).resetTransforms).getUp
        = (Camera.new position direction fov near far width height).getUp
    ∧ (((Camera.new position direction fov near far width height).run
        calls).resetTransforms).resetTransforms
        = ((Camera.new position direction fov near far width height).run
            calls).resetTransforms := by
  obtain ⟨hp, hd, hu⟩ :=
    Camera.run_base calls (Camera.new position direction fov near far width height)
  have hp0 : (Camera.new position direction fov near far width height).position
      = position := rfl
  have hd0 : (Camera.new position direction fov near far width height).direction
      = direction := rfl
  have hu0 : (Camera.new position direction fov near far width height).up
      = ⟨0, 1, 0⟩ := rfl
  have h1 := Camera.getPosition_resetTransforms
    ((Camera.new position direction fov near far width height).run calls)
  have h2 := Camera.getDirection_resetTransforms
    ((Camera.new position direction fov near far width height).run calls)
  have h3 := Camera.getUp_resetTransforms
    ((Camera.new position direction fov near far width height).run calls)
  have f1 := Camera.getPosition_new position direction fov near far width height
  have f2 := Camera.getDirection_new position direction fov near far width height
  have f3 := Camera.getUp_new position direction fov near far width height
  rw [hp, hp0] at h1
  rw [hd, hd0] at h2
  rw [hu, hu0, normalize_up] at h3
  exact ⟨rfl, h1, h2, h3, h1.trans f1.symm, h2.trans f2.symm, h3.trans f3.symm, rfl⟩

/-- C3: for every camera state, `translate(dx,dy,dz)` followed by `translate(-dx,-dy,-dz)`
restores the accumulated transform (indeed the whole state) and hence `getPosition`. -/
theorem C3_translate_round_trip (c : Camera ℝ) (dx dy dz : ℝ) :
    ((c.translate dx dy dz).translate (-dx) (-dy) (-dz)).getTransformMat = c.getTransformMat
    ∧ ((c.translate dx dy dz).translate (-dx) (-dy) (-dz)).getPosition = c.getPosition
    ∧ (c.translate dx dy dz).translate (-dx) (-dy) (-dz) = c := by
  have h := Camera.translate_neg_translate c dx dy dz
  rw [h]
  exact ⟨rfl, rfl, rfl⟩

/-- C4: for every camera state, every non-zero axis and every angle `a` in degrees,
`rotate(x,y,z,a)` left-multiplies onto the accumulated transform the Rodrigues rotation about
the normalized axis `n` by `a * pi / 180`, and `rotate(x,y,z,-a)` afterwards restores the
accumulated transform (indeed the whole state). -/
theorem C4_rotate_round_trip (c : Camera ℝ) (x y z a : ℝ)
    (haxis : (⟨x, y, z⟩ : vec3 ℝ) ≠ ⟨0, 0, 0⟩) :
    (c.rotate x y z a).getTransformMat
      = glm.rotate 1 (a * (Real.pi / 180)) ⟨x, y, z⟩ * c.getTransformMat
    ∧ glm.rotate 1 (a * (Real.pi / 180)) (⟨x, y, z⟩ : vec3 ℝ)
      = rodrigues (Real.cos (a * (Real.pi / 180))) (Real.sin (a * (Real.pi / 180)))
          (glm.normalize ⟨x, y, z⟩)
    ∧ ((c.rotate x y z a).rotate x y z (-a)).getTransformMat = c.getTransformMat
    ∧ (c.rotate x y z a).rotate x y z (-a) = c := by
  have h : (c.rotate x y z a).rotate x y z (-a) = c := by
    have hm : glm.rotate 1 (glm.radians (-a)) (⟨x, y, z⟩ : vec3 ℝ)
        * (glm.rotate 1 (glm.radians a) ⟨x, y, z⟩ * c.transforms) = c.transforms := by
      have hr : glm.radians (-a) = -glm.radians a := by
        simp only [glm.radians]
        ring
      rw [← Matrix.mul_assoc, hr, rotate_neg_mul _ _ haxis, Matrix.one_mul]
    cases c
    simp only [Camera.rotate] at hm ⊢
    rw [hm]
  rw [h]
  exact ⟨rfl, rotate_one_eq_rodrigues _ _, rfl, rfl⟩

/-- Witness for C4: the rotation `rotateDown` performs, undone, on the camera of `main.cpp`. -/
theorem C4_rotate_round_trip_witness :
    (⟨1, 0, 1⟩ : vec3 ℝ) ≠ ⟨0, 0, 0⟩
    ∧ ((Camera.new (⟨0, 0.75, 3⟩ : vec3 ℝ) ⟨0, -0.25, -1⟩ 45 0.1 300 1400 800).rotate
          1 0 1 1).rotate 1 0 1 (-1)
        = Camera.new (⟨0, 0.75, 3⟩ : vec3 ℝ) ⟨0, -0.25, -1⟩ 45 0.1 300 1400 800 :=
  ⟨by intro h; have hx := congrArg vec3.x h; norm_num at hx,
   (C4_rotate_round_trip _ 1 0 1 1
      (by intro h; have hx := congrArg vec3.x h; norm_num at hx)).2.2.2⟩

/-- C5 fails as stated: on the example camera, whose accumulated transform maps the base
direction to the non-zero vector `(0,0,-1)`, `moveFront` followed by `moveBack` moves
`getPosition` from `(0,0,0)` to `(0,0,4)`. -/
theorem C5_round_trip_fails_for_projective_transform :
    vec4.xyz (mulVec4 (Camera.projectiveExample ℝ).transforms
        (vec4.ofVec3 (Camera.projectiveExample ℝ).direction 1)) ≠ ⟨0, 0, 0⟩
    ∧ (Camera.projectiveExample ℝ).getPosition = ⟨0, 0, 0⟩
    ∧ (Camera.projectiveExample ℝ).moveFront.moveBack.getPosition = ⟨0, 0, 4⟩
    ∧ (Camera.projectiveExample ℝ).moveFront.moveBack.getPosition
        ≠ (Camera.projectiveExample ℝ).getPosition := by
  refine ⟨?_, projectiveExample_getPosition, projectiveExample_final, ?_⟩
  · intro h
    have hz := congrArg vec3.z h
    simp [Camera.projectiveExample, Camera.setTransformMat, Camera.new, mulVec4, vec4.ofVec3,
      vec4.xyz, Matrix.vecHead, Matrix.vecTail] at hz
  · rw [projectiveExample_final, projectiveExample_getPosition]
    intro h
    have hz := congrArg vec3.z h
    norm_num at hz

/-- C5, amended: for every camera state whose accumulated transform has last row `(0,0,0,1)`
and maps the base direction (as a point, `w = 1`) to a non-zero vector, `moveFront` keeps
`getDirection`, and `moveBack` after it restores `getPosition` (indeed the whole state). -/
theorem C5_moveFront_moveBack_round_trip (c : Camera ℝ)
    (haffine : glm.IsAffine c.getTransformMat)
    (hv : vec4.xyz (mulVec4 c.getTransformMat (vec4.ofVec3 c.direction 1)) ≠ ⟨0, 0, 0⟩) :
    c.moveFront.getDirection = c.getDirection
    ∧ c.moveFront.moveBack.getPosition = c.getPosition
    ∧ c.moveFront.moveBack = c := by
  have h := Camera.moveBack_moveFront c haffine hv
  refine ⟨Camera.getDirection_moveFront c haffine hv, ?_, h⟩
  rw [h]

/-- Witness for C5: the camera that `main.cpp` creates, before any movement. -/
theorem C5_moveFront_moveBack_round_trip_witness :
    glm.IsAffine
      (Camera.new (⟨0, 0.75, 3⟩ : vec3 ℝ) ⟨0, -0.25, -1⟩ 45 0.1 300 1400 800).getTransformMat
    ∧ (Camera.new (⟨0, 0.75, 3⟩ : vec3 ℝ) ⟨0, -0.25, -1⟩ 45 0.1 300 1400
        800).moveFront.moveBack.getPosition
      = (Camera.new (⟨0, 0.75, 3⟩ : vec3 ℝ) ⟨0, -0.25, -1⟩ 45 0.1 300 1400 800).getPosition :=
  ⟨isAffine_one,
   (C5_moveFront_moveBack_round_trip
      (Camera.new (⟨0, 0.75, 3⟩ : vec3 ℝ) ⟨0, -0.25, -1⟩ 45 0.1 300 1400 800) isAffine_one
      (by
        intro h
        have hz := congrArg vec3.z h
        simp [Camera.getTransformMat, Camera.new, mulVec4_one, vec4.ofVec3, vec4.xyz]
          at hz)).2.1⟩

/-- C6: for a camera with `0 < near < far`, `0 < fov < 180` and positive width and height,
`getProjection` is the right-handed perspective matrix with depth range `[-1,1]` whose aspect
is the real quotient `width / height` (positive, as is `tan(fov/2)`); it maps every view-space
point at `z = -near` to normalized depth `-1` and every point at `z = -far` to `+1`; and a
camera that differs only in width and height has the same projection in every entry except
the x-scale entry in row 0, column 0. -/
theorem C6_projection_matrix (c : Camera ℝ) (hnear : 0 < c.near) (hfar : c.near < c.far)
    (hfov : 0 < c.fov) (hfov180 : c.fov < 180) (hwidth : 0 < c.window_width)
    (hheight : 0 < c.window_height) :
    c.getProjection
      = !![1 / ((c.window_width : ℝ) / (c.window_height : ℝ)
              * Real.tan (c.fov * (Real.pi / 180) / 2)), 0, 0, 0;
           0, 1 / Real.tan (c.fov * (Real.pi / 180) / 2), 0, 0;
           0, 0, -(c.far + c.near) / (c.far - c.near),
             -(2 * c.far * c.near) / (c.far - c.near);
           0, 0, -1, 0]
    ∧ 0 < (c.window_width : ℝ) / (c.window_height : ℝ)
    ∧ 0 < Real.tan (c.fov * (Real.pi / 180) / 2)
    ∧ (∀ x y : ℝ, glm.ndcDepth (mulVec4 c.getProjection ⟨x, y, -c.near, 1⟩) = -1)
    ∧ (∀ x y : ℝ, glm.ndcDepth (mulVec4 c.getProjection ⟨x, y, -c.far, 1⟩) = 1)
    ∧ (∀ (w h : Int) (i j : Fin 4), (i, j) ≠ (0, 0) →
        ((c.setWidth w).setHeight h).getProjection i j = c.getProjection i j) := by
  have hfar0 : 0 < c.far := hnear.trans hfar
  have hd : c.far - c.near ≠ 0 := (sub_pos.mpr hfar).ne'
  have hw : (0 : ℝ) < (c.window_width : ℝ) := by exact_mod_cast hwidth
  have hh : (0 : ℝ) < (c.window_height : ℝ) := by exact_mod_cast hheight
  have htan : 0 < Real.tan (c.fov * (Real.pi / 180) / 2) := by
    apply Real.tan_pos_of_pos_of_lt_pi_div_two
    · have := Real.pi_pos
      positivity
    · have := Real.pi_pos
      nlinarith
  refine ⟨rfl, div_pos hw hh, htan, ?_, ?_, ?_⟩
  · intro x y
    simp only [glm.ndcDepth, mulVec4, Camera.getProjection, perspective]
    simp [Matrix.vecHead, Matrix.vecTail]
    field_simp
    ring
  · intro x y
    simp only [glm.ndcDepth, mulVec4, Camera.getProjection, perspective]
    simp [Matrix.vecHead, Matrix.vecTail]
    field_simp
    ring
  · intro w h i j hij
    fin_cases i <;> fin_cases j <;>
      first
        | exact absurd rfl hij
        | simp [Camera.getProjection, perspective, Camera.setWidth, Camera.setHeight,
            Matrix.vecHead, Matrix.vecTail]

/-- Witness for C6: the camera of `main.cpp` in a 1600 by 900 window; a point on the near plane
has normalized depth `-1`. -/
theorem C6_projection_matrix_witness :
    glm.ndcDepth (mulVec4
      (Camera.new (⟨0, 0.75, 3⟩ : vec3 ℝ) ⟨0, -0.25, -1⟩ 45 0.1 300 1600 900).getProjection
      ⟨0, 0, -(Camera.new (⟨0, 0.75, 3⟩ : vec3 ℝ) ⟨0, -0.25, -1⟩ 45 0.1 300 1600 900).near, 1⟩)
      = -1 :=
  (C6_projection_matrix
    (Camera.new (⟨0, 0.75, 3⟩ : vec3 ℝ) ⟨0, -0.25, -1⟩ 45 0.1 300 1600 900)
    (by norm_num [Camera.new]) (by norm_num [Camera.new]) (by norm_num [Camera.new])
    (by norm_num [Camera.new]) (by norm_num [Camera.new]) (by norm_num [Camera.new])).2.2.2.1 0 0

/-- C7 fails as stated: on the camera of `main.cpp` (1400 by 800) `setWidth(0)` and
`setHeight(-5)` are not rejected; the stored width becomes `0` and the stored height `-5`
instead of keeping their previous positive values. -/
theorem C7_setWidth_setHeight_accept_non_positive :
    ((Camera.new (⟨0, 0.75, 3⟩ : vec3 ℝ) ⟨0, -0.25, -1⟩ 45 0.1 300 1400 800).setWidth
        0).window_width = 0
    ∧ ((Camera.new (⟨0, 0.75, 3⟩ : vec3 ℝ) ⟨0, -0.25, -1⟩ 45 0.1 300 1400 800).setWidth
        0).window_width
      ≠ (Camera.new (⟨0, 0.75, 3⟩ : vec3 ℝ) ⟨0, -0.25, -1⟩ 45 0.1 300 1400 800).window_width
    ∧ ((Camera.new (⟨0, 0.75, 3⟩ : vec3 ℝ) ⟨0, -0.25, -1⟩ 45 0.1 300 1400 800).setHeight
        (-5)).window_height = -5
    ∧ ((Camera.new (⟨0, 0.75, 3⟩ : vec3 ℝ) ⟨0, -0.25, -1⟩ 45 0.1 300 1400 800).setHeight
        (-5)).window_height
      ≠ (Camera.new (⟨0, 0.75, 3⟩ : vec3 ℝ) ⟨0, -0.25, -1⟩ 45 0.1 300 1400 800).window_height :=
  ⟨rfl, by simp [Camera.setWidth, Camera.new], rfl, by simp [Camera.setHeight, Camera.new]⟩

/-- C7, amended: `setWidth(v)` and `setHeight(v)` accept every integer `v`, non-positive ones
included: the stored width (height) becomes `v`, every other field keeps its value, and
`getProjection` afterwards uses `v` as the numerator (denominator) of its aspect ratio. -/
theorem C7_setWidth_setHeight_store_any_value (c : Camera ℝ) (v : Int) :
    (c.setWidth v).window_width = v
    ∧ c.setWidth v = { c with window_width := v }
    ∧ (c.setHeight v).window_height = v
    ∧ c.setHeight v = { c with window_height := v }
    ∧ (c.setWidth v).getProjection
        = perspective (glm.radians c.fov) ((v : ℝ) / (c.window_height : ℝ)) c.near c.far
    ∧ (c.setHeight v).getProjection
        = perspective (glm.radians c.fov) ((c.window_width : ℝ) / (v : ℝ)) c.near c.far :=
  ⟨rfl, rfl, rfl, rfl, rfl, rfl⟩

/-- C8: `solveSinusoids(x)` returns the sum over the stored sinusoids of
`amplitude * sin((x + phase) * frequency)` and leaves the generator unchanged; with no
sinusoid it returns `0`, and with the single sinusoid of amplitude `A`, phase `0` and
frequency `1` it returns `0` at `x = 0` and `A` at `x = pi / 2`. -/
theorem C8_solveSinusoids_is_sum (t : Turbulence ℝ) (x A : ℝ) :
    (t.solveSinusoids x).1
      = (t.partial_sinusoids.map
          fun s => s.amplitude * Real.sin ((x + s.phase) * s.frequency)).sum
    ∧ (t.solveSinusoids x).2 = t
    ∧ ((⟨[]⟩ : Turbulence ℝ).solveSinusoids x).1 = 0
    ∧ ((⟨[⟨A, 0, 1⟩]⟩ : Turbulence ℝ).solveSinusoids 0).1 = 0
    ∧ ((⟨[⟨A, 0, 1⟩]⟩ : Turbulence ℝ).solveSinusoids (Real.pi / 2)).1 = A := by
  refine ⟨?_, rfl, ?_, ?_, ?_⟩
  · simp only [Turbulence.solveSinusoids, foldl_solveSinusoid, zero_add]
  · simp [Turbulence.solveSinusoids]
  · simp [Turbulence.solveSinusoids, Turbulence.solveSinusoid]
  · simp [Turbulence.solveSinusoids, Turbulence.solveSinusoid]

/-- C9 fails as stated: with `num_of_sins = -1` (and valid ranges) construction does not
fail; it produces the generator with no sinusoid, whose output is `0` everywhere. -/
theorem C9_negative_count_is_accepted :
    ∃ t : Turbulence ℝ,
      Turbulence.new (fun _ => (1 / 2 : ℝ)) (-1) 0 1 0 1 0 1 = t
      ∧ t.partial_sinusoids = []
      ∧ (t.solveSinusoids 0).1 = 0 :=
  ⟨⟨[]⟩, rfl, rfl, by simp [Turbulence.solveSinusoids]⟩

/-- C9, amended: the constructor validates nothing and never fails; for every argument tuple
with `min ≤ max` in each range it produces a generator that stores exactly `num_of_sins`
sinusoids when `num_of_sins ≥ 0` and none when `num_of_sins < 0`. -/
theorem C9_constructor_stores_count (canonical : ℕ → ℝ) (num_of_sins : Int)
    (min_amplitude max_amplitude min_phi max_phi min_omega max_omega : ℝ)
    (_hamplitude : min_amplitude ≤ max_amplitude) (_hphi : min_phi ≤ max_phi)
    (_homega : min_omega ≤ max_omega) :
    (0 ≤ num_of_sins →
      ((Turbulence.new canonical num_of_sins min_amplitude max_amplitude min_phi max_phi
          min_omega max_omega).partial_sinusoids.length : Int) = num_of_sins)
    ∧ (num_of_sins < 0 →
      (Turbulence.new canonical num_of_sins min_amplitude max_amplitude min_phi max_phi
          min_omega max_omega).partial_sinusoids = []) := by
  have h := (Turbulence.fill_spec canonical min_amplitude max_amplitude min_phi max_phi
    min_omega max_omega num_of_sins.toNat).2
  constructor
  · intro hn
    simp only [Turbulence.new, h]
    exact Int.toNat_of_nonneg hn
  · intro hn
    have h0 : num_of_sins.toNat = 0 := Int.toNat_eq_zero.mpr hn.le
    simp only [Turbulence.new, h0, Turbulence.fill]

/-- Witness for C9: three sinusoids from the unit ranges. -/
theorem C9_constructor_stores_count_witness :
    ((Turbulence.new (fun _ => (1 / 2 : ℝ)) 3 0 1 0 1 0 1).partial_sinusoids.length : Int) = 3 :=
  (C9_constructor_stores_count (fun _ => (1 / 2 : ℝ)) 3 0 1 0 1 0 1
    (by norm_num) (by norm_num) (by norm_num)).1 (by norm_num)

/-- C10: `translate(dx,dy,dz)` left-multiplies the translation matrix onto the accumulated
transform, and in every state reached from construction by `resetTransforms`, `rotate` about a
non-zero axis and `translate` calls it changes `getPosition` to the old position plus
`(dx,dy,dz)`, whatever rotations were accumulated. -/
theorem C10_translate_in_world_space (position direction : vec3 ℝ) (fov near far : ℝ)
    (width height : Int) (calls : List (Call ℝ)) (hcalls : ∀ k ∈ calls, k.IsPoseCall)
    (dx dy dz : ℝ) :
    (((Camera.new position direction fov near far width height).run calls).translate
        dx dy dz).getTransformMat
      = glm.translate 1 ⟨dx, dy, dz⟩
        * ((Camera.new position direction fov near far width height).run
            calls).getTransformMat
    ∧ (((Camera.new position direction fov near far width height).run calls).translate
        dx dy dz).getPosition
      = ((Camera.new position direction fov near far width height).run calls).getPosition
        + ⟨dx, dy, dz⟩ :=
  ⟨rfl, Camera.getPosition_translate _
    (Camera.run_isAffine calls _ hcalls isAffine_one) dx dy dz⟩

/-- Witness for C10: translate after a quarter turn about the vertical axis and a first
translation. -/
theorem C10_translate_in_world_space_witness :
    (∀ k ∈ [Call.rotate (0 : ℝ) 1 0 90, Call.translate 1 2 3], k.IsPoseCall)
    ∧ (((Camera.new (⟨0, 0.75, 3⟩ : vec3 ℝ) ⟨0, -0.25, -1⟩ 45 0.1 300 1400 800).run
          [Call.rotate 0 1 0 90, Call.translate 1 2 3]).translate 5 6 7).getPosition
      = ((Camera.new (⟨0, 0.75, 3⟩ : vec3 ℝ) ⟨0, -0.25, -1⟩ 45 0.1 300 1400 800).run
          [Call.rotate 0 1 0 90, Call.translate 1 2 3]).getPosition + ⟨5, 6, 7⟩ :=
  ⟨by
    intro k hk
    simp only [List.mem_cons, List.mem_singleton, List.not_mem_nil, or_false] at hk
    rcases hk with rfl | rfl
    · intro h
      have hy := congrArg vec3.y h
      norm_num at hy
    · trivial,
   (C10_translate_in_world_space _ _ 45 0.1 300 1400 800
      [Call.rotate 0 1 0 90, Call.translate 1 2 3]
      (by
        intro k hk
        simp only [List.mem_cons, List.mem_singleton, List.not_mem_nil, or_false] at hk
        rcases hk with rfl | rfl
        · intro h
          have hy := congrArg vec3.y h
          norm_num at hy
        · trivial) 5 6 7).2⟩

/-- C11, evaluated on the camera of `main.cpp` (direction and up non-zero and not parallel):
`moveFront`, `moveBack`, `moveUp` and `moveDown` displace `getPosition` by a vector of length
`0.1`, but `moveRight` and `moveLeft` displace it by a vector of length `1`, from
`(0, 0.75, 3)` to `(1, 0.75, 3)` and `(-1, 0.75, 3)`. -/
theorem C11_strafe_step_is_unit_length :
    glm.length ((Camera.mainCamera ℝ).moveFront.getPosition
        - (Camera.mainCamera ℝ).getPosition) = 0.1
    ∧ glm.length ((Camera.mainCamera ℝ).moveBack.getPosition
        - (Camera.mainCamera ℝ).getPosition) = 0.1
    ∧ glm.length ((Camera.mainCamera ℝ).moveUp.getPosition
        - (Camera.mainCamera ℝ).getPosition) = 0.1
    ∧ glm.length ((Camera.mainCamera ℝ).moveDown.getPosition
        - (Camera.mainCamera ℝ).getPosition) = 0.1
    ∧ glm.length ((Camera.mainCamera ℝ).moveRight.getPosition
        - (Camera.mainCamera ℝ).getPosition) = 1
    ∧ glm.length ((Camera.mainCamera ℝ).moveLeft.getPosition
        - (Camera.mainCamera ℝ).getPosition) = 1
    ∧ (Camera.mainCamera ℝ).getPosition = ⟨0, 0.75, 3⟩
    ∧ (Camera.mainCamera ℝ).moveRight.getPosition = ⟨1, 0.75, 3⟩
    ∧ (Camera.mainCamera ℝ).moveLeft.getPosition = ⟨-1, 0.75, 3⟩ := by
  have hc : glm.IsAffine (Camera.mainCamera ℝ).transforms := isAffine_one
  have hd : glm.transformPoint (Camera.mainCamera ℝ).transforms
      (Camera.mainCamera ℝ).direction ≠ ⟨0, 0, 0⟩ := by
    have h : glm.transformPoint (Camera.mainCamera ℝ).transforms
        (Camera.mainCamera ℝ).direction = ⟨0, -0.25, -1⟩ := transformPoint_one _
    rw [h]
    exact mainCamera_direction_ne
  have hu : glm.transformPoint (Camera.mainCamera ℝ).transforms
      (Camera.mainCamera ℝ).up ≠ ⟨0, 0, 0⟩ := by
    have h : glm.transformPoint (Camera.mainCamera ℝ).transforms
        (Camera.mainCamera ℝ).up = ⟨0, 1, 0⟩ := transformPoint_one _
    rw [h]
    intro h0
    have hy := congrArg vec3.y h0
    norm_num at hy
  have hcross : cross (Camera.mainCamera ℝ).getDirection (Camera.mainCamera ℝ).getUp
      ≠ ⟨0, 0, 0⟩ := by
    have hpos := sqrt_dot_self_pos _ mainCamera_direction_ne
    rw [mainCamera_cross]
    intro h0
    have hx := congrArg vec3.x h0
    simp only [scale, one_mul] at hx
    exact (one_div_pos.mpr hpos).ne' hx
  have hp : (Camera.mainCamera ℝ).getPosition = ⟨0, 0.75, 3⟩ :=
    Camera.getPosition_new _ _ _ _ _ _ _
  have hright := Camera.moveRight_step _ hc hd hu hcross
  have hleft := Camera.moveLeft_step _ hc hd hu hcross
  rw [mainCamera_normalize_cross] at hright hleft
  refine ⟨?_, ?_, ?_, ?_, ?_, ?_, hp, ?_, ?_⟩
  · rw [Camera.moveFront_step _ hc hd]
    exact length_scale_tenth _ (Camera.dot_getDirection _ hd)
  · rw [Camera.moveBack_step _ hc hd, length_neg]
    exact length_scale_tenth _ (Camera.dot_getDirection _ hd)
  · rw [Camera.moveUp_step _ hc hu]
    exact length_scale_tenth _ (Camera.dot_getUp _ hu)
  · rw [Camera.moveDown_step _ hc hu, length_neg]
    exact length_scale_tenth _ (Camera.dot_getUp _ hu)
  · rw [hright]
    exact length_of_unit _ (by simp [dot])
  · rw [hleft, length_neg]
    exact length_of_unit _ (by simp [dot])
  · rw [hp] at hright
    have hx := congrArg vec3.x hright
    have hy := congrArg vec3.y hright
    have hz := congrArg vec3.z hright
    simp only [vec3_sub_def] at hx hy hz
    ext
    · linarith
    · linarith
    · linarith
  · rw [hp] at hleft
    have hx := congrArg vec3.x hleft
    have hy := congrArg vec3.y hleft
    have hz := congrArg vec3.z hleft
    simp only [vec3_sub_def, vec3_neg_def] at hx hy hz
    ext
    · linarith
    · linarith
    · linarith

/-- C12: in every state `getDirection` (and likewise `getUp`) is the normalized image
`R * base + t` of the base vector taken as a point, for `R` the upper-left block and `t` the
translation column of the accumulated transform; so translation leaks into the look
direction: on the camera of `main.cpp` (base direction `(0,-0.25,-1)`), `translate(0,1,0)`
changes `getDirection`. -/
theorem C12_direction_is_point_transform (c : Camera ℝ) :
    c.getDirection = glm.normalize (glm.transformPoint c.getTransformMat c.direction)
    ∧ c.getUp = glm.normalize (glm.transformPoint c.getTransformMat c.up)
    ∧ ((Camera.mainCamera ℝ).translate 0 1 0).getDirection
        = glm.normalize ⟨0, -0.25 + 1, -1⟩
    ∧ (Camera.mainCamera ℝ).getDirection = glm.normalize ⟨0, -0.25, -1⟩
    ∧ ((Camera.mainCamera ℝ).translate 0 1 0).getDirection
        ≠ (Camera.mainCamera ℝ).getDirection := by
  refine ⟨Camera.getDirection_eq_transformPoint c, Camera.getUp_eq_transformPoint c, ?_,
    mainCamera_getDirection, ?_⟩
  · rw [mainCamera_translate_getDirection]
    norm_num
  · rw [mainCamera_translate_getDirection, mainCamera_getDirection]
    intro h
    have h1 : 0 < (glm.normalize (⟨0, 0.75, -1⟩ : vec3 ℝ)).y :=
      normalize_y_pos _ (by intro h; have hz := congrArg vec3.z h; norm_num at hz)
        (by norm_num)
    have h2 : (glm.normalize (⟨0, -0.25, -1⟩ : vec3 ℝ)).y < 0 :=
      normalize_y_neg _ (by intro h; have hz := congrArg vec3.z h; norm_num at hz)
        (by norm_num)
    rw [h] at h1
    exact lt_asymm h1 h2

/-- C13 fails as stated: `translate(0,-1,0)` followed by `moveUp` is a sequence of the
claim's calls, yet after the translation the camera of `main.cpp` maps its base up vector to
the zero vector, so `moveUp` normalizes the zero vector and the run has no resulting state:
the float code fills the accumulated transform with NaN, which is not a rigid transform. -/
theorem C13_moveUp_normalizes_zero_vector :
    (∀ k ∈ [Call.translate (0 : ℝ) (-1) 0, Call.moveUp], k.IsMotionCall)
    ∧ vec4.xyz (mulVec4 ((Camera.mainCamera ℝ).translate 0 (-1) 0).transforms
        (vec4.ofVec3 ((Camera.mainCamera ℝ).translate 0 (-1) 0).up 1)) = ⟨0, 0, 0⟩
    ∧ (Call.moveUp : Call ℝ).normalizesZero ((Camera.mainCamera ℝ).translate 0 (-1) 0) = true
    ∧ (Camera.mainCamera ℝ).runChecked [Call.translate 0 (-1) 0, Call.moveUp] = none := by
  have hz : (Call.moveUp : Call ℝ).normalizesZero ((Camera.mainCamera ℝ).translate 0 (-1) 0)
      = true := by
    simp only [Call.normalizesZero, Camera.upNormalizesZero, mainCamera_translate_up_point,
      (isZero_iff _).mpr rfl, Bool.true_or]
  refine ⟨?_, mainCamera_translate_up_point, hz, ?_⟩
  · intro k hk
    simp only [List.mem_cons, List.mem_singleton, List.not_mem_nil, or_false] at hk
    rcases hk with rfl | rfl
    · trivial
    · trivial
  · have h1 : (Call.translate (0 : ℝ) (-1) 0).normalizesZero (Camera.mainCamera ℝ) = false :=
      rfl
    rw [Camera.runChecked_cons_of_defined _ _ _ h1]
    simp only [Camera.runChecked, Camera.callChecked, Camera.call, hz, if_true,
      Option.none_bind]

/-- C13, amended: in every state reached from construction by a sequence of
`resetTransforms`, `rotate` about a non-zero axis, `translate` and the move and rotate
primitives in which no call normalizes the zero vector, the accumulated transform is rigid:
its upper-left block `R` satisfies `Rᵀ * R = 1` and `det R = 1`, its last row is
`(0,0,0,1)`, and hence it has determinant one and is invertible. -/
theorem C13_accumulator_is_rigid (position direction : vec3 ℝ) (fov near far : ℝ)
    (width height : Int) (calls : List (Call ℝ)) (hcalls : ∀ k ∈ calls, k.IsMotionCall)
    (c : Camera ℝ)
    (hrun : (Camera.new position direction fov near far width height).runChecked calls
      = some c) :
    c = (Camera.new position direction fov near far width height).run calls
    ∧ (glm.rotationBlock c.getTransformMat).transpose * glm.rotationBlock c.getTransformMat
        = 1
    ∧ (glm.rotationBlock c.getTransformMat).det = 1
    ∧ glm.IsAffine c.getTransformMat
    ∧ c.getTransformMat.det = 1
    ∧ IsUnit c.getTransformMat := by
  have h := Camera.runChecked_isRigid calls _ c hcalls isRigid_one hrun
  refine ⟨Camera.runChecked_eq_some calls _ c hrun, h.1, h.2.1, h.2.2, ?_,
    isUnit_of_isRigid _ h⟩
  rw [Camera.getTransformMat, det_of_isAffine _ h.2.2, h.2.1]

/-- Witness for C13: the camera of `main.cpp` after `translate(0,0,1)`, `moveUp` and
`rotateDown`, a run in which no call normalizes the zero vector. -/
theorem C13_accumulator_is_rigid_witness :
    (∀ k ∈ [Call.translate (0 : ℝ) 0 1, Call.moveUp, Call.rotateDown], k.IsMotionCall)
    ∧ (Camera.mainCamera ℝ).runChecked [Call.translate 0 0 1, Call.moveUp, Call.rotateDown]
        = some ((Camera.mainCamera ℝ).run
            [Call.translate 0 0 1, Call.moveUp, Call.rotateDown])
    ∧ IsUnit ((Camera.mainCamera ℝ).run
        [Call.translate 0 0 1, Call.moveUp, Call.rotateDown]).getTransformMat :=
  ⟨by
    intro k hk
    simp only [List.mem_cons, List.mem_singleton, List.not_mem_nil, or_false] at hk
    rcases hk with rfl | rfl | rfl
    · trivial
    · trivial
    · trivial,
   mainCamera_runChecked,
   (C13_accumulator_is_rigid ⟨0, 0.75, 3⟩ ⟨0, -0.25, -1⟩ 45 0.1 300 1400 800
      [Call.translate 0 0 1, Call.moveUp, Call.rotateDown]
      (by
        intro k hk
        simp only [List.mem_cons, List.mem_singleton, List.not_mem_nil, or_false] at hk
        rcases hk with rfl | rfl | rfl
        · trivial
        · trivial
        · trivial)
      _ mainCamera_runChecked).2.2.2.2.2⟩

/-- C14: in every state `rotateLeft`, `rotateRight` and `rotateUp` leave the whole state
unchanged, and `rotateDown` is `rotate(1, 0, 1, 1.0)`: it changes only the accumulated
transform, left-multiplying the rotation by one degree about the normalized axis `(1,0,1)`,
which is not the identity, so that on the camera of `main.cpp` it does change the state. -/
theorem C14_only_rotateDown_rotates (c : Camera ℝ) :
    c.rotateLeft = c ∧ c.rotateRight = c ∧ c.rotateUp = c
    ∧ c.rotateDown = c.rotate 1 0 1 1
    ∧ c.rotateDown
        = c.setTransformMat
            (rodrigues (Real.cos (Real.pi / 180)) (Real.sin (Real.pi / 180))
              (glm.normalize ⟨1, 0, 1⟩) * c.getTransformMat)
    ∧ rodrigues (Real.cos (Real.pi / 180)) (Real.sin (Real.pi / 180))
        (glm.normalize (⟨1, 0, 1⟩ : vec3 ℝ)) ≠ 1
    ∧ (Camera.mainCamera ℝ).rotateDown.getTransformMat
        ≠ (Camera.mainCamera ℝ).getTransformMat := by
  refine ⟨rfl, rfl, rfl, rfl, ?_, rodrigues_rotateDown_ne_one, ?_⟩
  swap
  · intro h
    have hr := rotate_one_eq_rodrigues (glm.radians 1) (⟨1, 0, 1⟩ : vec3 ℝ)
    have hrad : glm.radians (1 : ℝ) = Real.pi / 180 := by
      simp [glm.radians]
    rw [hrad] at hr
    simp only [Camera.rotateDown, Camera.rotate, Camera.getTransformMat, Camera.mainCamera,
      Camera.new, Matrix.mul_one, hrad, hr] at h
    exact rodrigues_rotateDown_ne_one h
  have h := rotate_one_eq_rodrigues (glm.radians 1) (⟨1, 0, 1⟩ : vec3 ℝ)
  have hr : glm.radians (1 : ℝ) = Real.pi / 180 := by
    simp [glm.radians]
  rw [hr] at h
  simp only [Camera.rotateDown, Camera.rotate, hr, h, Camera.setTransformMat,
    Camera.getTransformMat]

/-- C15: the front/back round trip is order-sensitive.  In a state reached from construction
by `resetTransforms`, `rotate` about a non-zero axis and `translate`, with `v` the image of
the base direction as a point and `v ≠ 0`: `moveFront` keeps `getDirection`; `moveBack` keeps
it when `|v| > 0.1` and reverses it when `|v| < 0.1`; so `moveBack` followed by `moveFront`
restores `getPosition` when `|v| > 0.1` and leaves it displaced by distance `0.2` when
`|v| < 0.1`. -/
theorem C15_front_back_order_sensitive (position direction : vec3 ℝ) (fov near far : ℝ)
    (width height : Int) (calls : List (Call ℝ)) (hcalls : ∀ k ∈ calls, k.IsPoseCall)
    (c : Camera ℝ)
    (hc : c = (Camera.new position direction fov near far width height).run calls)
    (hv : glm.transformPoint c.getTransformMat c.direction ≠ ⟨0, 0, 0⟩) :
    c.moveFront.getDirection = c.getDirection
    ∧ (0.1 < glm.length (glm.transformPoint c.getTransformMat c.direction) →
        c.moveBack.getDirection = c.getDirection
        ∧ c.moveBack.moveFront.getPosition = c.getPosition)
    ∧ (glm.length (glm.transformPoint c.getTransformMat c.direction) < 0.1 →
        c.moveBack.getDirection = -c.getDirection
        ∧ c.moveBack.moveFront.getPosition - c.getPosition = scale c.getDirection (-0.2)
        ∧ glm.length (c.moveBack.moveFront.getPosition - c.getPosition) = 0.2) := by
  have haffine : glm.IsAffine c.transforms := by
    rw [hc]
    exact Camera.run_isAffine calls _ hcalls isAffine_one
  have hv' : vec4.xyz (mulVec4 c.transforms (vec4.ofVec3 c.direction 1)) ≠ ⟨0, 0, 0⟩ := by
    rw [xyz_mulVec4_ofVec3]
    exact hv
  refine ⟨Camera.getDirection_moveFront c haffine hv', ?_, ?_⟩
  · intro hfar
    refine ⟨Camera.getDirection_moveBack_far c haffine hv hfar, ?_⟩
    rw [Camera.moveFront_moveBack_far c haffine hv hfar]
  · intro hnear
    have hd := Camera.moveFront_moveBack_near c haffine hv hnear
    refine ⟨Camera.getDirection_moveBack_near c haffine hv hnear, hd, ?_⟩
    rw [hd]
    apply length_scale_unit
    rw [Camera.getDirection_eq_transformPoint]
    exact dot_normalize_self _ hv

/-- Witness for C15: a camera looking down the negative z axis, translated by `0.95` along z,
so that `|v| = 0.05`; `moveBack` then `moveFront` leaves it displaced by `0.2`. -/
theorem C15_front_back_order_sensitive_witness :
    (∀ k ∈ [Call.translate (0 : ℝ) 0 0.95], k.IsPoseCall)
    ∧ glm.length
        (((Camera.new (⟨0, 0, 0⟩ : vec3 ℝ) ⟨0, 0, -1⟩ 45 0.1 300 1400 800).run
            [Call.translate 0 0 0.95]).moveBack.moveFront.getPosition
          - ((Camera.new (⟨0, 0, 0⟩ : vec3 ℝ) ⟨0, 0, -1⟩ 45 0.1 300 1400 800).run
            [Call.translate 0 0 0.95]).getPosition) = 0.2 :=
  ⟨by
    intro k hk
    simp only [List.mem_singleton] at hk
    rw [hk]
    trivial,
   ((C15_front_back_order_sensitive ⟨0, 0, 0⟩ ⟨0, 0, -1⟩ 45 0.1 300 1400 800
      [Call.translate 0 0 0.95]
      (by
        intro k hk
        simp only [List.mem_singleton] at hk
        rw [hk]
        trivial)
      _ rfl
      (by
        rw [nearExample_transformPoint]
        intro h
        have hz := congrArg vec3.z h
        norm_num at hz)).2.2
      (by
        rw [nearExample_transformPoint]
        exact length_nearExample)).2.2⟩

/-- C16: construction is deterministic.  The constructor starts from a fresh fixed-seed engine
and takes amplitude, phase and frequency of sinusoid `i` from draws `3 i`, `3 i + 1` and
`3 i + 2`; so two generators constructed with the same arguments (ranges with `min ≤ max`)
store the same sinusoids and return the same `solveSinusoids(x)` for every `x`, and the
generator built with `n` sinusoids is a prefix of the one built with `n + 1`. -/
theorem C16_construction_is_deterministic (canonical : ℕ → ℝ) (num_of_sins : Int)
    (min_amplitude max_amplitude min_phi max_phi min_omega max_omega : ℝ)
    (_hamplitude : min_amplitude ≤ max_amplitude) (_hphi : min_phi ≤ max_phi)
    (_homega : min_omega ≤ max_omega) :
    (Turbulence.new canonical num_of_sins min_amplitude max_amplitude min_phi max_phi
        min_omega max_omega).partial_sinusoids
      = (List.range num_of_sins.toNat).map (fun i =>
          ⟨min_amplitude + (max_amplitude - min_amplitude) * canonical (3 * i),
           min_phi + (max_phi - min_phi) * canonical (3 * i + 1),
           min_omega + (max_omega - min_omega) * canonical (3 * i + 2)⟩)
    ∧ (∀ first second : Turbulence ℝ,
        first = Turbulence.new canonical num_of_sins min_amplitude max_amplitude min_phi
          max_phi min_omega max_omega →
        second = Turbulence.new canonical num_of_sins min_amplitude max_amplitude min_phi
          max_phi min_omega max_omega →
        first.partial_sinusoids = second.partial_sinusoids
          ∧ ∀ x : ℝ, (first.solveSinusoids x).1 = (second.solveSinusoids x).1)
    ∧ (Turbulence.new canonical num_of_sins min_amplitude max_amplitude min_phi max_phi
        min_omega max_omega).partial_sinusoids
      <+: (Turbulence.new canonical (num_of_sins + 1) min_amplitude max_amplitude min_phi
        max_phi min_omega max_omega).partial_sinusoids := by
  refine ⟨Turbulence.fill_eq_map _ _ _ _ _ _ _ _, ?_, ?_⟩
  · intro first second h1 h2
    rw [h1, h2]
    exact ⟨rfl, fun _ => rfl⟩
  · rcases lt_or_le num_of_sins 0 with hn | hn
    · have h0 : num_of_sins.toNat = 0 := Int.toNat_eq_zero.mpr hn.le
      simp only [Turbulence.new, h0, Turbulence.fill]
      exact List.nil_prefix
    · have h1 : (num_of_sins + 1).toNat = num_of_sins.toNat + 1 := by omega
      simp only [Turbulence.new, h1, Turbulence.fill]
      exact List.prefix_append _ _

/-- Witness for C16: the generator with two sinusoids from the unit ranges is a prefix of the
one with three. -/
theorem C16_construction_is_deterministic_witness :
    (Turbulence.new (fun k => (1 / (k + 2) : ℝ)) 2 0 1 0 1 0 1).partial_sinusoids
      <+: (Turbulence.new (fun k => (1 / (k + 2) : ℝ)) (2 + 1) 0 1 0 1 0 1).partial_sinusoids :=
  (C16_construction_is_deterministic (fun k => (1 / (k + 2) : ℝ)) 2 0 1 0 1 0 1
    (by norm_num) (by norm_num) (by norm_num)).2.2

end bgq_opengl
